import Mathlib

/-!
Verification of the askto-sales-agent memory/orchestration subsystem.

The development shallowly embeds the Python source under `server/agent/`:
pure functions become Lean functions, the Redis and PostgreSQL stores become
explicit state types with the client methods as state transformers, and
Python `float` arithmetic is embedded exactly: a binary64 value is an exact
rational, and every arithmetic operation rounds its exact rational result to
the nearest binary64 value (round-to-nearest, ties-to-even), which is the
IEEE-754 semantics CPython uses.  Python `round` on a float is
round-half-to-even on the exact rational the float denotes.
-/

/-! ## Exact rational arithmetic (kernel-computable)

`Q2` is a numerator/denominator pair.  Operations do not normalize; `qnorm`
(used when a canonical representative is needed, e.g. for the result of a
float rounding) divides by the gcd and makes the denominator positive.
Every value produced by the embedding has a positive denominator. -/

structure Q2 where
  num : ℤ
  den : ℤ
deriving DecidableEq

/-- Divide out the gcd (a nonnegative-denominator pair). -/
def qnormPos (x : Q2) : Q2 :=
  if (Int.gcd x.num x.den : ℤ) = 0 then ⟨0, 1⟩
  else ⟨x.num / (Int.gcd x.num x.den : ℤ), x.den / (Int.gcd x.num x.den : ℤ)⟩

/-- Canonical form: positive denominator, lowest terms. -/
def qnorm (x : Q2) : Q2 :=
  if x.den < 0 then qnormPos ⟨-x.num, -x.den⟩ else qnormPos x

def qadd (x y : Q2) : Q2 := ⟨x.num * y.den + y.num * x.den, x.den * y.den⟩

def qsub (x y : Q2) : Q2 := ⟨x.num * y.den - y.num * x.den, x.den * y.den⟩

def qmul (x y : Q2) : Q2 := ⟨x.num * y.num, x.den * y.den⟩

def qdiv (x y : Q2) : Q2 := ⟨x.num * y.den, x.den * y.num⟩

def qneg (x : Q2) : Q2 := ⟨-x.num, x.den⟩

/-- Comparison `x < y` for pairs with positive denominators. -/
def qlt (x y : Q2) : Bool := x.num * y.den < y.num * x.den

/-- Comparison `x ≤ y` for pairs with positive denominators. -/
def qle (x y : Q2) : Bool := x.num * y.den ≤ y.num * x.den

/-- Floor of the rational value (positive denominator assumed). -/
def qfloor (x : Q2) : ℤ := Int.fdiv x.num x.den

/-- Round to the nearest integer, ties to even: the behaviour of Python
`round(x)` on a float `x`, and the IEEE-754 tie rule on an integer grid. -/
def rhe (x : Q2) : ℤ :=
  let f := qfloor x
  let fr := qsub x ⟨f, 1⟩
  if qlt fr ⟨1, 2⟩ then f
  else if qlt ⟨1, 2⟩ fr then f + 1
  else if f % 2 = 0 then f else f + 1

/-- Power `2^j` as an exact rational, for an integer exponent. -/
def pow2 (j : ℤ) : Q2 := if 0 ≤ j then ⟨2 ^ j.toNat, 1⟩ else ⟨1, 2 ^ (-j).toNat⟩

/-- Largest `e` with `2^(e+1) ≤ q`, searched upward (fuel-bounded). -/
def qlog2up : ℕ → Q2 → ℤ → ℤ
  | 0, _, e => e
  | fuel + 1, q, e => if qle (pow2 (e + 1)) q then qlog2up fuel q (e + 1) else e

/-- Largest `e` with `2^e ≤ q`, searched downward from `-1` (fuel-bounded). -/
def qlog2down : ℕ → Q2 → ℤ → ℤ
  | 0, _, e => e
  | fuel + 1, q, e => if qle (pow2 e) q then e else qlog2down fuel q (e - 1)

/-- Computes `⌊log₂ q⌋` for a positive rational `q`; the fuel covers the whole
binary64 exponent range, which is all the embedding evaluates it on. -/
def qlog2 (q : Q2) : ℤ :=
  if qle ⟨1, 1⟩ q then qlog2up 1300 q 0 else qlog2down 1300 q (-1)

/-- Round a positive rational onto the 53-bit-significand grid at its own
magnitude (round-to-nearest, ties-to-even). -/
def roPos (q : Q2) : Q2 :=
  let k := qlog2 q - 52
  qnorm (qmul ⟨rhe (qmul q (pow2 (-k))), 1⟩ (pow2 k))

/-- Round an exact rational to the nearest IEEE-754 binary64 value
(normal range; round-to-nearest, ties-to-even). -/
def ro (q : Q2) : Q2 :=
  if q.num = 0 then ⟨0, 1⟩
  else if 0 < q.num then roPos q
  else qneg (roPos (qneg q))

/-- Python float addition: exact sum, rounded to binary64. -/
def fadd (x y : Q2) : Q2 := ro (qadd x y)

/-- Python float subtraction: exact difference, rounded to binary64. -/
def fsub (x y : Q2) : Q2 := ro (qsub x y)

/-- Python float multiplication: exact product, rounded to binary64. -/
def fmul (x y : Q2) : Q2 := ro (qmul x y)

/-- Python float (true) division: exact quotient, rounded to binary64. -/
def fdiv (x y : Q2) : Q2 := ro (qdiv x y)

/-- Python `min` on two floats: the first argument unless the second is
strictly smaller. -/
def qmin (x y : Q2) : Q2 := if qle x y then x else y

/-- The binary64 value of the Python literal `4.33`
(`4.33 = 2437573298314281 / 2^49` exactly). -/
def d4_33 : Q2 := ⟨2437573298314281, 562949953421312⟩

/-- The binary64 value of the Python literal `0.10`
(`0.10 = 3602879701896397 / 2^55` exactly). -/
def d0_1 : Q2 := ⟨3602879701896397, 36028797018963968⟩

/-! ## `calculate_savings` (src/server/agent/prompts/card_details.py, lines 48-89) -/

/-- The dict returned by `calculate_savings`: the `round(...)` entries are
Python ints, `annual_fee` is the raw int, `fee_waived` a bool. -/
structure SavingsResult where
  weekly_spend : ℤ
  monthly_spend : ℤ
  annual_spend : ℤ
  monthly_cashback : ℤ
  annual_cashback : ℤ
  monthly_delivery_savings : ℤ
  annual_delivery_savings : ℤ
  total_annual_savings : ℤ
  annual_fee : ℤ
  fee_waived : Bool
  net_first_year : ℤ
  net_subsequent_years : ℤ
deriving DecidableEq

/-- Embeds `calculate_savings(weekly_orders, avg_order_amount)` from
`card_details.py`, with Python float arithmetic embedded exactly
(each `*`, `+`, `-` rounds to binary64; `round` is ties-to-even). -/
def calculate_savings (weekly_orders avg_order_amount : Q2) : SavingsResult :=
  let weekly_spend := fmul weekly_orders avg_order_amount
  let monthly_spend := fmul weekly_spend d4_33
  let annual_spend := fmul weekly_spend ⟨52, 1⟩
  let monthly_cashback := qmin (fmul monthly_spend d0_1) ⟨1500, 1⟩
  let annual_cashback := fmul monthly_cashback ⟨12, 1⟩
  let monthly_delivery_savings := fmul (fmul weekly_orders d4_33) ⟨40, 1⟩
  let annual_delivery_savings := fmul monthly_delivery_savings ⟨12, 1⟩
  let total_annual_savings := fadd annual_cashback annual_delivery_savings
  let annual_fee : Q2 := if qlt annual_spend ⟨50000, 1⟩ then ⟨500, 1⟩ else ⟨0, 1⟩
  let signup_bonus : Q2 := ⟨500, 1⟩
  let net_first_year := fadd (fsub total_annual_savings annual_fee) signup_bonus
  let net_subsequent_years := fsub total_annual_savings annual_fee
  { weekly_spend := rhe weekly_spend
    monthly_spend := rhe monthly_spend
    annual_spend := rhe annual_spend
    monthly_cashback := rhe monthly_cashback
    annual_cashback := rhe annual_cashback
    monthly_delivery_savings := rhe monthly_delivery_savings
    annual_delivery_savings := rhe annual_delivery_savings
    total_annual_savings := rhe total_annual_savings
    annual_fee := if qlt annual_spend ⟨50000, 1⟩ then 500 else 0
    fee_waived := qle ⟨50000, 1⟩ annual_spend
    net_first_year := rhe net_first_year
    net_subsequent_years := rhe net_subsequent_years }

/-- The exact rational `net_subsequent_years` float of `calculate_savings`
before rounding (the prefix of the same computation), used to state when
the signup-bonus addition is exact. -/
def savings_net_base (weekly_orders avg_order_amount : Q2) : Q2 :=
  let weekly_spend := fmul weekly_orders avg_order_amount
  let monthly_spend := fmul weekly_spend d4_33
  let annual_spend := fmul weekly_spend ⟨52, 1⟩
  let monthly_cashback := qmin (fmul monthly_spend d0_1) ⟨1500, 1⟩
  let annual_cashback := fmul monthly_cashback ⟨12, 1⟩
  let monthly_delivery_savings := fmul (fmul weekly_orders d4_33) ⟨40, 1⟩
  let annual_delivery_savings := fmul monthly_delivery_savings ⟨12, 1⟩
  let total_annual_savings := fadd annual_cashback annual_delivery_savings
  let annual_fee : Q2 := if qlt annual_spend ⟨50000, 1⟩ then ⟨500, 1⟩ else ⟨0, 1⟩
  fsub total_annual_savings annual_fee

/-! ## Character classes and substring search (ASCII fragment of Python `re`/`str`) -/

/-- Python `\d` (ASCII range, which is all the agent handles). -/
def isDigitCh (c : Char) : Bool := '0' ≤ c && c ≤ '9'

/-- Python `\s` (ASCII range). -/
def isSpaceCh (c : Char) : Bool :=
  c == ' ' || c == '\t' || c == '\n' || c == '\r' || c == '\x0b' || c == '\x0c'

/-- A character of the regex class `[\s\-\.\(\)]` stripped by
`extract_phone_number` (identity_node.py line 15). -/
def isSepCh (c : Char) : Bool :=
  isSpaceCh c || c == '-' || c == '.' || c == '(' || c == ')'

/-- Class `[6-9]`, the restricted leading-digit set of Indian mobile numbers. -/
def is69 (c : Char) : Bool := '6' ≤ c && c ≤ '9'

/-- Python `str.lower`, ASCII fragment. -/
def toLowerCh (c : Char) : Char :=
  if 'A' ≤ c && c ≤ 'Z' then Char.ofNat (c.toNat + 32) else c

/-- Tests whether `n` starts the list `h`. -/
def leadsWith : List Char → List Char → Bool
  | [], _ => true
  | _ :: _, [] => false
  | a :: as, b :: bs => a == b && leadsWith as bs

/-- Python `needle in hay` substring containment. -/
def hasSub (n : List Char) : List Char → Bool
  | [] => leadsWith n []
  | c :: rest => leadsWith n (c :: rest) || hasSub n rest

/-- Python `int` on a nonempty digit string. -/
def natOfDigits (d : List Char) : ℕ := d.foldl (fun a c => a * 10 + (c.toNat - 48)) 0

/-- The `re.search` driver: try the position matcher `f` at every start position,
left to right, and return the first match. -/
def scanFirst (f : List Char → Option α) : List Char → Option α
  | [] => f []
  | c :: rest =>
    match f (c :: rest) with
    | some r => some r
    | none => scanFirst f rest

/-! ## `parse_frequency_to_weekly` (src/server/agent/nodes/memory_writer.py, lines 217-253) -/

/-- Matcher for the pattern `(\d+)\s*(?:to|-)\s*(\d+)` anchored at the current
position.  `\d+` and `\s*` are greedy and, because a digit can start neither
`\s*(?:to|-)` nor `(?:to|-)`, maximal munch coincides with the regex
backtracking semantics; the alternation tries `to` before `-`. -/
def rangeAt (s : List Char) : Option (ℕ × ℕ) :=
  let d1 := s.takeWhile isDigitCh
  if d1.isEmpty then none
  else
    let r1 := (s.dropWhile isDigitCh).dropWhile isSpaceCh
    let afterSep : Option (List Char) :=
      if leadsWith ['t', 'o'] r1 then some (r1.drop 2)
      else if leadsWith ['-'] r1 then some (r1.drop 1)
      else none
    match afterSep with
    | none => none
    | some r2 =>
      let d2 := (r2.dropWhile isSpaceCh).takeWhile isDigitCh
      if d2.isEmpty then none else some (natOfDigits d1, natOfDigits d2)

/-- Matcher for `(\d+)` anchored at the current position (greedy run). -/
def numAt (s : List Char) : Option ℕ :=
  let d := s.takeWhile isDigitCh
  if d.isEmpty then none else some (natOfDigits d)

/-- The search for the range pattern `(\d+)\s*(?:to|-)\s*(\d+)`, returning the two groups. -/
def searchRange : List Char → Option (ℕ × ℕ) := scanFirst rangeAt

/-- The search for the pattern `(\d+)`, returning the group. -/
def searchNum : List Char → Option ℕ := scanFirst numAt

/-- Embeds `parse_frequency_to_weekly` (memory_writer.py lines 217-253): parse a
frequency phrase into a weekly order count.  Results are Python numbers:
`(low+high)/2` and `num/4.33` are float divisions, `float(num)` rounds the
int to binary64, `num*7` stays an exact int. -/
def parse_frequency_to_weekly (frequency : List Char) : Option Q2 :=
  if frequency.isEmpty then none
  else
    let f := frequency.map toLowerCh
    match searchRange f with
    | some (low, high) => some (fdiv ⟨(low : ℤ) + (high : ℤ), 1⟩ ⟨2, 1⟩)
    | none =>
      match searchNum f with
      | some num =>
        if hasSub ['w', 'e', 'e', 'k'] f then some (ro ⟨(num : ℤ), 1⟩)
        else if hasSub ['m', 'o', 'n', 't', 'h'] f then some (fdiv (ro ⟨(num : ℤ), 1⟩) d4_33)
        else if hasSub ['d', 'a', 'y'] f then some ⟨(num : ℤ) * 7, 1⟩
        else some (ro ⟨(num : ℤ), 1⟩)
      | none =>
        if hasSub ['d', 'a', 'i', 'l', 'y'] f ||
            hasSub ['e', 'v', 'e', 'r', 'y', ' ', 'd', 'a', 'y'] f then
          some ⟨7, 1⟩
        else if hasSub ['t', 'w', 'i', 'c', 'e'] f && hasSub ['w', 'e', 'e', 'k'] f then
          some ⟨2, 1⟩
        else if hasSub ['o', 'n', 'c', 'e'] f && hasSub ['w', 'e', 'e', 'k'] f then
          some ⟨1, 1⟩
        else if hasSub ['o', 'c', 'c', 'a', 's', 'i', 'o', 'n', 'a', 'l', 'l', 'y'] f ||
            hasSub ['r', 'a', 'r', 'e', 'l', 'y'] f then
          some ⟨1, 2⟩
        else none

/-! ## `extract_phone_number` (src/server/agent/nodes/identity_node.py, lines 12-40) -/

/-- Characters of a text after deleting the class `[\s\-\.\(\)]` (the `re.sub` of line 15). -/
def cleanedOf (t : List Char) : List Char := t.filter (fun c => !isSepCh c)

/-- The digit characters of a text, in order (the `re.sub` deleting `\D`). -/
def digitsOf (t : List Char) : List Char := t.filter isDigitCh

/-- Matcher for `[6-9]\d{9}` anchored at the current position; returns the
ten matched digit characters. -/
def tenAt69 (s : List Char) : Option (List Char) :=
  match s with
  | [] => none
  | c :: rest =>
    if is69 c && ((rest.take 9).length == 9 && (rest.take 9).all isDigitCh) then
      some (c :: rest.take 9)
    else none

/-- Matcher for `(?:\+91|91)?([6-9]\d{9})` anchored at the current position;
the optional group tries `+91`, then `91`, then the empty alternative, which
is the regex backtracking order.  Returns group 1. -/
def tryIndian (s : List Char) : Option (List Char) :=
  match (if leadsWith ['+', '9', '1'] s then tenAt69 (s.drop 3) else none) with
  | some g => some g
  | none =>
    match (if leadsWith ['9', '1'] s then tenAt69 (s.drop 2) else none) with
    | some g => some g
    | none => tenAt69 s

/-- Matcher for `(\d{10})` anchored at the current position. -/
def tenAtAny (s : List Char) : Option (List Char) :=
  if (s.take 10).length == 10 && (s.take 10).all isDigitCh then some (s.take 10) else none

/-- Embeds `extract_phone_number` (identity_node.py lines 12-40): strip separator
characters, try the three patterns in priority order on the cleaned text
(each match is exactly 10 characters by construction, so the `len == 10`
guard of the source always holds), then fall back to the last 10 of all
digit characters of the original text. -/
def extract_phone_number (text : List Char) : Option (List Char) :=
  let cleaned := cleanedOf text
  match scanFirst tryIndian cleaned with
  | some phone => some phone
  | none =>
    match scanFirst tenAt69 cleaned with
    | some phone => some phone
    | none =>
      match scanFirst tenAtAny cleaned with
      | some phone => some phone
      | none =>
        let all_digits := digitsOf text
        if 10 ≤ all_digits.length then
          some (all_digits.drop (all_digits.length - 10))
        else none

/-! ## Ephemeral session store (src/server/agent/memory/redis_client.py)

The store is modelled as two key families: the per-session metadata hash
(`session:{id}`) and the per-session message list (`session:{id}:messages`).
TTL refreshes do not change stored values and are not represented.  A hash
field holds a JSON value; a field may be absent (hash never written), so
every metadata field is wrapped in `Option`, with a second `Option` for a
stored JSON `null` where the source can store one. -/

/-- One message of the session list: role and content. -/
structure RMsg where
  role : String
  content : String
deriving DecidableEq

/-- The fields of the `session:{id}` metadata hash.  The outer `Option` is
field presence; `user_id`/`phone_number` store a nullable string. -/
structure SessionMeta where
  session_id : Option String
  user_id : Option (Option String)
  session_type : Option String
  phone_number : Option (Option String)
  identity_verified : Option Bool
  turn_count : Option ℤ
deriving DecidableEq

/-- A metadata hash with no fields. -/
def emptyMeta : SessionMeta := ⟨none, none, none, none, none, none⟩

/-- A partial update (the `mapping=` of an `hset`): fields to overwrite. -/
structure MetaDelta where
  session_id : Option String
  user_id : Option (Option String)
  session_type : Option String
  phone_number : Option (Option String)
  identity_verified : Option Bool
  turn_count : Option ℤ
deriving DecidableEq

/-- The empty update. -/
def emptyDelta : MetaDelta := ⟨none, none, none, none, none, none⟩

/-- Overwrite the fields named by the delta, keep the rest. -/
def applyDelta (m : SessionMeta) (d : MetaDelta) : SessionMeta :=
  { session_id := match d.session_id with
      | some v => some v
      | none => m.session_id
    user_id := match d.user_id with
      | some v => some v
      | none => m.user_id
    session_type := match d.session_type with
      | some v => some v
      | none => m.session_type
    phone_number := match d.phone_number with
      | some v => some v
      | none => m.phone_number
    identity_verified := match d.identity_verified with
      | some v => some v
      | none => m.identity_verified
    turn_count := match d.turn_count with
      | some v => some v
      | none => m.turn_count }

/-- The ephemeral store: metadata hash and message list per session id.  A
missing message key reads as the empty list (Redis `lrange` semantics). -/
structure RedisState where
  meta : String → Option SessionMeta
  msgs : String → List RMsg

/-- The store with no keys. -/
def emptyRedis : RedisState := ⟨fun _ => none, fun _ => []⟩

/-- Redis `hset` on the session hash: creates the hash when absent. -/
def hsetMeta (st : RedisState) (session_id : String) (d : MetaDelta) : RedisState :=
  { st with
    meta := fun k =>
      if k = session_id then some (applyDelta ((st.meta session_id).getD emptyMeta) d)
      else st.meta k }

/-- Embeds `store_session_metadata` (redis_client.py lines 67-93): writes all six
fields, with `turn_count = 0`. -/
def store_session_metadata (st : RedisState) (session_id : String)
    (user_id : Option String) (session_type : String)
    (phone_number : Option String) (identity_verified : Bool) : RedisState :=
  hsetMeta st session_id
    ⟨some session_id, some user_id, some session_type, some phone_number,
      some identity_verified, some 0⟩

/-- Embeds `update_session_metadata` (redis_client.py lines 103-115): `hset` of the
given fields, guarded by `if updates:`. -/
def update_session_metadata (st : RedisState) (session_id : String) (d : MetaDelta) :
    RedisState :=
  if d = emptyDelta then st else hsetMeta st session_id d

/-- Embeds `add_message` (redis_client.py lines 117-132): `rpush` the message, then
set `turn_count` to the `rpush` return value (the new list length). -/
def add_message (st : RedisState) (session_id role content : String) : RedisState :=
  let newList := st.msgs session_id ++ [⟨role, content⟩]
  let st1 : RedisState :=
    { st with msgs := fun k => if k = session_id then newList else st.msgs k }
  update_session_metadata st1 session_id
    { emptyDelta with turn_count := some (newList.length : ℤ) }

/-- Embeds `get_messages` (redis_client.py lines 134-145): the whole list, or the
last `limit` entries when `limit` is truthy (nonzero). -/
def get_messages (st : RedisState) (session_id : String) (limit : Option ℕ) : List RMsg :=
  match limit with
  | some l =>
    if l ≠ 0 then (st.msgs session_id).drop ((st.msgs session_id).length - l)
    else st.msgs session_id
  | none => st.msgs session_id

/-- The turn counter stored in the metadata hash of a session, if any. -/
def metaTurnCount (st : RedisState) (session_id : String) : Option ℤ :=
  (st.meta session_id).bind (fun m => m.turn_count)

/-- The C1 invariant: the ephemeral `turn_count` field equals the length of
the message list returned by `get_messages` with no limit. -/
def TurnCountInv (st : RedisState) (session_id : String) : Prop :=
  metaTurnCount st session_id = some ((get_messages st session_id none).length : ℤ)

/-- The fields of the final graph state that `process_message` reads
(graph.py lines 205-228): `current_response`, `turn_count`,
`identity_verified`, `user_id`, `phone_number`.  A `None` response is
modelled as `""` (both are falsy in the `if response:` check of the source). -/
structure GraphResult where
  response : String
  turn_count : ℤ
  identity_verified : Bool
  user_id : Option String
  phone_number : Option String

/-- The Redis writes of `memory_writer_node` (memory_writer.py lines 36-54):
append the user turn if nonempty, append the assistant turn if nonempty,
then overwrite `turn_count` with the graph-state counter and
`identity_verified`. -/
def memory_writer_redis (st : RedisState) (session_id current_input current_response : String)
    (turn_count : ℤ) (identity_verified : Bool) : RedisState :=
  let st1 := if current_input ≠ "" then add_message st session_id "user" current_input else st
  let st2 :=
    if current_response ≠ "" then add_message st1 session_id "assistant" current_response
    else st1
  update_session_metadata st2 session_id
    { emptyDelta with turn_count := some turn_count, identity_verified := some identity_verified }

/-- The Redis writes of `SalesAgentRunner.process_message` (graph.py lines
201-228) on its non-raising path: the writer node of the graph runs first when
the graph reaches it (`ranWriter`), then the runner overwrites `turn_count`
with the graph counter, appends the user and assistant messages again when
nonempty, and finally records identity metadata when verified. -/
def process_message_redis (st : RedisState) (session_id user_input : String)
    (ranWriter : Bool) (g : GraphResult) : RedisState :=
  let st0 :=
    if ranWriter then
      memory_writer_redis st session_id user_input g.response g.turn_count g.identity_verified
    else st
  let st1 := update_session_metadata st0 session_id
    { emptyDelta with turn_count := some g.turn_count }
  let st2 := if user_input ≠ "" then add_message st1 session_id "user" user_input else st1
  let st3 := if g.response ≠ "" then add_message st2 session_id "assistant" g.response else st2
  if g.identity_verified then
    update_session_metadata st3 session_id
      { emptyDelta with
        identity_verified := some true
        user_id := some g.user_id
        phone_number := some g.phone_number }
  else st3

/-! ## Durable insight store (src/server/agent/memory/postgres_client.py, lines 300-344)

The `computed_insights` table is a list of rows; `store_insight` selects by
the `(user_id, insight_type, insight_key)` triple with `scalar_one_or_none`
and either updates the found row in place or inserts a new one.  Under the
at-most-one-row-per-triple invariant (proved below for every reachable
state) the in-place update touches exactly the selected row. -/

/-- A row of `computed_insights` (id/timestamps omitted; UUIDs as strings). -/
structure InsightRow where
  user_id : String
  insight_type : String
  insight_key : String
  insight_value : String
  numeric_value : Option Q2
  confidence : Q2
  derived_from_session_id : Option String
deriving DecidableEq

/-- The `where` clause of the `store_insight` select. -/
def matchesTriple (u ty k : String) (r : InsightRow) : Bool :=
  r.user_id == u && r.insight_type == ty && r.insight_key == k

/-- The in-place update of a found insight row (postgres_client.py lines
322-328): value, numeric value and confidence are overwritten;
`derived_from_session_id` only when a truthy `session_id` was passed. -/
def upsertRow (insight_value : String) (numeric_value : Option Q2) (confidence : Q2)
    (session_id : Option String) (r : InsightRow) : InsightRow :=
  { r with
    insight_value := insight_value
    numeric_value := numeric_value
    confidence := confidence
    derived_from_session_id := match session_id with
      | some s => some s
      | none => r.derived_from_session_id }

/-- Embeds `store_insight` (postgres_client.py lines 300-344).  When a row with the
triple exists it is updated in place; otherwise a new row is inserted. -/
def store_insight (rows : List InsightRow) (user_id insight_type insight_key : String)
    (insight_value : String) (numeric_value : Option Q2) (confidence : Q2)
    (session_id : Option String) : List InsightRow :=
  if rows.any (matchesTriple user_id insight_type insight_key) then
    rows.map (fun r =>
      if matchesTriple user_id insight_type insight_key r then
        upsertRow insight_value numeric_value confidence session_id r
      else r)
  else
    rows ++ [⟨user_id, insight_type, insight_key, insight_value, numeric_value,
      confidence, session_id⟩]

/-- Insight-table states reachable from the empty table: `store_insight` is
the only operation of the client that writes `computed_insights`. -/
inductive InsightReachable : List InsightRow → Prop
  | empty : InsightReachable []
  | step (rows : List InsightRow) (u ty k v : String) (n : Option Q2) (c : Q2)
      (s : Option String) (h : InsightReachable rows) :
      InsightReachable (store_insight rows u ty k v n c s)

/-! ## Profile merge (src/server/agent/memory/postgres_client.py, lines 159-192)

`update_user_profile` receives keyword arguments naming JSONB columns of
`user_profiles`.  A JSONB payload is modelled one level deep - a dict of
scalar leaves, a list of scalar leaves, or a scalar - which covers every
payload the agent writes (memory_writer.py lines 101-156). -/

/-- A scalar JSON leaf. -/
inductive JLeaf where
  | jstr : String → JLeaf
  | jnum : Q2 → JLeaf
  | jbool : Bool → JLeaf
  | jnull : JLeaf
deriving DecidableEq

/-- A JSONB column payload. -/
inductive FieldVal where
  | jdict : List (String × JLeaf) → FieldVal
  | jlist : List JLeaf → FieldVal
  | jscalar : JLeaf → FieldVal
deriving DecidableEq

/-- The JSONB columns of `user_profiles` (models.py lines 47-63). -/
inductive ProfileField where
  | spending_patterns
  | food_habits
  | financial_goals
  | current_cards
  | preferences
  | pain_points
deriving DecidableEq

/-- A profile row (JSONB columns only; id/user_id/timestamps omitted). -/
structure ProfileRec where
  spending_patterns : FieldVal
  food_habits : FieldVal
  financial_goals : FieldVal
  current_cards : FieldVal
  preferences : FieldVal
  pain_points : FieldVal
deriving DecidableEq

/-- Column defaults: `default=dict` for the map columns, `default=list` for
`pain_points` (models.py lines 54-59). -/
def defaultProfile : ProfileRec :=
  ⟨.jdict [], .jdict [], .jdict [], .jdict [], .jdict [], .jlist []⟩

/-- Read a column. -/
def getField (p : ProfileRec) : ProfileField → FieldVal
  | .spending_patterns => p.spending_patterns
  | .food_habits => p.food_habits
  | .financial_goals => p.financial_goals
  | .current_cards => p.current_cards
  | .preferences => p.preferences
  | .pain_points => p.pain_points

/-- Write a column. -/
def setField (p : ProfileRec) : ProfileField → FieldVal → ProfileRec
  | .spending_patterns, v => { p with spending_patterns := v }
  | .food_habits, v => { p with food_habits := v }
  | .financial_goals, v => { p with financial_goals := v }
  | .current_cards, v => { p with current_cards := v }
  | .preferences, v => { p with preferences := v }
  | .pain_points, v => { p with pain_points := v }

/-- Python `current.update(value)` on dicts: existing keys are overwritten
in place (keeping their position), new keys of `value` are appended in
order. -/
def lookupLast (m : List (String × JLeaf)) (k : String) : Option JLeaf :=
  m.foldl (fun acc e => if e.1 == k then some e.2 else acc) none

/-- Key membership in a dict. -/
def keyIn (k : String) (m : List (String × JLeaf)) : Bool := m.any (fun e => e.1 == k)

/-- Shallow dict merge, Python `dict.update` semantics. -/
def dictUpdate (m d : List (String × JLeaf)) : List (String × JLeaf) :=
  m.map (fun e =>
    match lookupLast d e.1 with
    | some nv => (e.1, nv)
    | none => e) ++ d.filter (fun e => !keyIn e.1 m)

/-- The entry rewriter of `dictUpdate`. -/
def dictOverwrite (d : List (String × JLeaf)) (e : String × JLeaf) : String × JLeaf :=
  match lookupLast d e.1 with
  | some nv => (e.1, nv)
  | none => e

/-- The loop `for item in value: if item not in current: current.append(item)`. -/
def dedupAppend (l d : List JLeaf) : List JLeaf :=
  d.foldl (fun acc item => if item ∈ acc then acc else acc ++ [item]) l

/-- The per-column merge of `update_user_profile` (postgres_client.py lines
174-188): dict-with-dict merges, list-with-list dedup-appends, anything
else replaces. -/
def mergeField (current incoming : FieldVal) : FieldVal :=
  match current, incoming with
  | .jdict m, .jdict d => .jdict (dictUpdate m d)
  | .jlist l, .jlist d => .jlist (dedupAppend l d)
  | _, _ => incoming

/-- Embeds `update_user_profile` (postgres_client.py lines 159-192): when no
profile row exists the kwargs initialise a fresh row over the column
defaults; otherwise each kwarg is merged into its column (`hasattr` always
holds for the modelled columns). -/
def update_user_profile (profile : Option ProfileRec)
    (updates : List (ProfileField × FieldVal)) : ProfileRec :=
  match profile with
  | none => updates.foldl (fun acc kv => setField acc kv.1 kv.2) defaultProfile
  | some p =>
    updates.foldl (fun acc kv => setField acc kv.1 (mergeField (getField acc kv.1) kv.2)) p

/-- A delta is dict-shaped: Python `**updates` cannot repeat a keyword, and
a dict payload cannot repeat a key. -/
def wfFieldVal : FieldVal → Prop
  | .jdict d => (d.map Prod.fst).Nodup
  | _ => True

/-! ## Context optimizer (src/server/agent/nodes/memory_retriever.py, lines 61-140) -/

/-- One element of `user_context["insights"]` (a `ComputedInsight.model_dump`):
`insight_key`/`insight_value` are non-null columns, `numeric_value` is
nullable. -/
structure CtxInsight where
  insight_key : String
  insight_value : String
  numeric_value : Option Q2
deriving DecidableEq

/-- One element of `user_context["recent_sessions"]` (a `Session.model_dump`,
fields the optimizer reads). -/
structure CtxSession where
  session_type : String
  started_at : Option String
  summary : Option String
  outcome : Option String
deriving DecidableEq

/-- The `user_context["user"]` dict (field the optimizer reads). -/
structure CtxUser where
  name : Option String
deriving DecidableEq

/-- The durable context handed to `build_session_context`. -/
structure UserCtx where
  user : Option CtxUser
  profile : Option ProfileRec
  insights : List CtxInsight
  recent_sessions : List CtxSession

/-- A value of the per-key insight map of the optimizer:
`numeric if numeric else value`. -/
inductive InsVal where
  | ofNum : Q2 → InsVal
  | ofStr : String → InsVal
deriving DecidableEq

/-- Python `d[key] = v`: overwrite in place if present, else append. -/
def dictAssign (m : List (String × InsVal)) (k : String) (v : InsVal) :
    List (String × InsVal) :=
  if m.any (fun e => e.1 == k) then
    m.map (fun e => if e.1 == k then (k, v) else e)
  else m ++ [(k, v)]

/-- Standard lookup in the produced insight map. -/
def insLookup (m : List (String × InsVal)) (k : String) : Option InsVal :=
  m.foldl (fun acc e => if e.1 == k then some e.2 else acc) none

/-- The insight-map loop shared by the pitch and objection branches
(memory_retriever.py lines 100-106 and 118-124): skip falsy keys; per key
store the numeric value when truthy (non-null and nonzero), else the string
value. -/
def insightsMap (insights : List CtxInsight) : List (String × InsVal) :=
  insights.foldl (fun acc i =>
    if i.insight_key ≠ "" then
      dictAssign acc i.insight_key
        (match i.numeric_value with
          | some q => if q.num ≠ 0 then .ofNum q else .ofStr i.insight_value
          | none => .ofStr i.insight_value)
    else acc) []

/-- The per-entry step of `insightsMap`. -/
def insightsStep (acc : List (String × InsVal)) (i : CtxInsight) : List (String × InsVal) :=
  if i.insight_key ≠ "" then
    dictAssign acc i.insight_key
      (match i.numeric_value with
        | some q => if q.num ≠ 0 then .ofNum q else .ofStr i.insight_value
        | none => .ofStr i.insight_value)
  else acc

/-- A projected previous-session entry (discovery projects type/date/summary,
objection projects type/summary/outcome; unused slots are `none`). -/
structure PrevOut where
  session_type : Option String
  started_at : Option String
  summary : Option String
  outcome : Option String
deriving DecidableEq

/-- The pitch-branch profile subset (memory_retriever.py lines 92-97). -/
structure PitchProfile where
  spending_patterns : FieldVal
  food_habits : FieldVal
  financial_goals : FieldVal
  current_cards : FieldVal
deriving DecidableEq

/-- The dict returned by `build_session_context`, one optional slot per
Python key it can set; the differently-shaped pitch/objection `profile`
values get separate slots. -/
structure OptimizedCtx where
  user : Option CtxUser
  name : Option String
  is_returning : Option Bool
  previous_sessions : Option (List PrevOut)
  profile_subset : Option PitchProfile
  profile_full : Option ProfileRec
  insights : Option (List (String × InsVal))
  discovery_summary : Option (Option String)
  pain_points : Option FieldVal
  known_objections : Option (Option JLeaf)

/-- Embeds `build_session_context(user_context, session_type)` (memory_retriever.py
lines 61-140).  `profile` falls back to the empty dict (modelled by the
column defaults); in the objection branch `known_objections` is the
`objections` entry of the `preferences` dict when present (the
`.get(..., [])` default is abstracted to `none`ness of the lookup). -/
def build_session_context (user_context : UserCtx) (session_type : String) : OptimizedCtx :=
  let base : OptimizedCtx :=
    { user := user_context.user
      name := match user_context.user with
        | some u => u.name
        | none => none
      is_returning := none, previous_sessions := none, profile_subset := none
      profile_full := none, insights := none, discovery_summary := none
      pain_points := none, known_objections := none }
  let profile := user_context.profile.getD defaultProfile
  let insights := user_context.insights
  let sessions := user_context.recent_sessions
  if session_type = "discovery" then
    { base with
      is_returning := some (decide (0 < sessions.length))
      previous_sessions := some ((sessions.take 2).map (fun s =>
        ⟨some s.session_type, s.started_at, s.summary, none⟩)) }
  else if session_type = "pitch" then
    let withProf := { base with
      profile_subset := some ⟨profile.spending_patterns, profile.food_habits,
        profile.financial_goals, profile.current_cards⟩
      insights := some (insightsMap insights) }
    match (sessions.filter (fun s => s.session_type == "discovery")).head? with
    | some s => { withProf with discovery_summary := some s.summary }
    | none => withProf
  else if session_type = "objection" then
    { base with
      profile_full := some profile
      insights := some (insightsMap insights)
      previous_sessions := some ((sessions.take 3).map (fun s =>
        ⟨some s.session_type, none, s.summary, s.outcome⟩))
      pain_points := some profile.pain_points
      known_objections := some (match profile.preferences with
        | .jdict m => lookupLast m "objections"
        | _ => none) }
  else base

/-! ## Turn pipeline on reply-generation failure (src/server/agent/nodes/response_node.py
lines 86-108, src/server/agent/graph.py lines 74-83 and 201-265)

The graph chain `generate_response → extract_profile → write_memory → END`
is unconditional, so whatever `response_node` returns flows through the
extraction and persistence nodes.  `response_node` calls `call_llm` inside
`try/except` when a client is attached, substituting a fixed apology; with
no client it awaits `call_openrouter` un-guarded: an HTTP-status failure
returns a fixed apology string, but a raised transport exception propagates
out of the graph, where `process_message` catches it and returns a third
fixed apology without running the remaining nodes. -/

/-- Behaviour of `call_llm` on the attached client: a reply, or an exception. -/
inductive ClientCall where
  | ok : String → ClientCall
  | raise : ClientCall

/-- Behaviour of `call_openrouter`: a reply, a non-200 HTTP response, or a
raised transport exception. -/
inductive ORCall where
  | ok : String → ORCall
  | httpError : ORCall
  | netRaise : ORCall

/-- Apology substituted by `response_node` when the client call raises
(response_node.py line 94). -/
def apology_response_node : String :=
  "I apologize, I\x27m having a brief technical issue. Could you repeat that?"

/-- Apology returned by `call_openrouter` on a non-200 response
(response_node.py lines 144 and 164). -/
def apology_openrouter : String :=
  "I apologize, I\x27m experiencing technical difficulties."

/-- Apology returned by `process_message` when the graph raises
(graph.py line 262). -/
def apology_process_message : String :=
  "I apologize, I\x27m experiencing a technical issue. Could you please try again?"

/-- The reply produced by `response_node` (response_node.py lines 86-97):
`Except` error means an exception propagates out of the node. -/
def response_node_reply (llm_client : Option ClientCall) (openrouter : ORCall) :
    Except Unit String :=
  match llm_client with
  | some (.ok s) => .ok s
  | some .raise => .ok apology_response_node
  | none =>
    match openrouter with
    | .ok s => .ok s
    | .httpError => .ok apology_openrouter
    | .netRaise => .error ()

/-- What a completed turn leaves behind: the reply returned to the caller,
whether the extraction node ran, and the ephemeral store (the Redis
Redis appends witness that persistence of the utterance ran). -/
structure TurnOutcome where
  response : String
  extraction_ran : Bool
  writer_ran : Bool
  redis : RedisState

/-- One run of the compiled graph on a verified-identity turn (entry routes
to `retrieve_memory`, then the unconditional chain of graph.py lines 74-83):
the result of the reply node feeds `extract_profile` and `write_memory`; an
exception aborts the chain. -/
def run_graph_turn (st : RedisState) (session_id user_input : String) (turn_count : ℤ)
    (llm_client : Option ClientCall) (openrouter : ORCall) : Except Unit TurnOutcome :=
  match response_node_reply llm_client openrouter with
  | .error e => .error e
  | .ok reply =>
    .ok { response := reply, extraction_ran := true, writer_ran := true
          redis := memory_writer_redis st session_id user_input reply (turn_count + 1) true }

/-- Embeds `process_message` around the graph (graph.py lines 201-265): on success
the Redis writes of the runner itself follow; on a raised exception the `except`
arm returns a fixed apology and performs no further pipeline work. -/
def process_message_turn (st : RedisState) (session_id user_input : String) (turn_count : ℤ)
    (llm_client : Option ClientCall) (openrouter : ORCall) : TurnOutcome :=
  match run_graph_turn st session_id user_input turn_count llm_client openrouter with
  | .ok r =>
    { r with
      redis := process_message_redis st session_id user_input true
        ⟨r.response, turn_count + 1, true, none, none⟩ }
  | .error _ =>
    { response := apology_process_message, extraction_ran := false, writer_ran := false
      redis := st }

/-! ## Identity and profile creation (src/server/agent/memory/postgres_client.py, lines 75-123) -/

/-- A row of `users` (fields relevant to creation; the sha256 of the
normalized digits is abstracted to the normalized digit string itself,
which preserves exactly the key structure the claims depend on). -/
structure PgUser where
  id : ℕ
  phone_number_hash : List Char
  phone_last_four : List Char
deriving DecidableEq

/-- A row of `user_profiles` (ownership field only). -/
structure PgProfile where
  user_id : ℕ
deriving DecidableEq

/-- The durable identity/profile tables, with an id generator. -/
structure PgState where
  users : List PgUser
  profiles : List PgProfile
  next_id : ℕ
deriving DecidableEq

/-- The empty durable store. -/
def emptyPg : PgState := ⟨[], [], 0⟩

/-- Embeds `hash_phone` (postgres_client.py lines 75-80): normalize to the digit
characters (the sha256 encoding of the result is abstracted away). -/
def hash_phone (phone_number : List Char) : List Char := phone_number.filter isDigitCh

/-- Embeds `get_last_four` (postgres_client.py lines 82-86). -/
def get_last_four (phone_number : List Char) : List Char :=
  let normalized := phone_number.filter isDigitCh
  if 4 ≤ normalized.length then normalized.drop (normalized.length - 4) else normalized

/-- First commit of `create_user` (postgres_client.py lines 107-115): the
user row alone is committed. -/
def create_user_commit1 (st : PgState) (phone_number : List Char) : PgState :=
  { st with
    users := st.users ++ [⟨st.next_id, hash_phone phone_number, get_last_four phone_number⟩]
    next_id := st.next_id + 1 }

/-- Second commit of `create_user` (postgres_client.py lines 117-120): the
empty profile row for the just-created user. -/
def create_user_commit2 (st : PgState) (user_id : ℕ) : PgState :=
  { st with profiles := st.profiles ++ [⟨user_id⟩] }

/-- Full `create_user` run to completion: both commits. -/
def create_user (st : PgState) (phone_number : List Char) : PgState :=
  create_user_commit2 (create_user_commit1 st phone_number) st.next_id

/-- Identity/Profile pairing: no identity without a profile and no profile
without an identity. -/
def PairedInv (st : PgState) : Prop :=
  (∀ u ∈ st.users, ∃ p ∈ st.profiles, p.user_id = u.id) ∧
  (∀ p ∈ st.profiles, ∃ u ∈ st.users, u.id = p.user_id)

/-! ## Helper lemmas -/

theorem pow2_den_pos (j : ℤ) : 0 < (pow2 j).den := by
  unfold pow2
  split
  · norm_num
  · exact pow_pos (by norm_num) _

theorem qnormPos_den_pos (x : Q2) (h : 0 < x.den) : 0 < (qnormPos x).den := by
  unfold qnormPos
  have hg : (Int.gcd x.num x.den : ℤ) ≠ 0 := by
    simp only [ne_eq, Int.natCast_eq_zero, Int.gcd_eq_zero_iff]
    intro ⟨_, h2⟩
    omega
  have hgpos : 0 < (Int.gcd x.num x.den : ℤ) := lt_of_le_of_ne (Int.natCast_nonneg _) (Ne.symm hg)
  rw [if_neg hg]
  have hdvd : (Int.gcd x.num x.den : ℤ) ∣ x.den := Int.gcd_dvd_right
  have hmul : x.den / (Int.gcd x.num x.den : ℤ) * (Int.gcd x.num x.den : ℤ) = x.den :=
    Int.ediv_mul_cancel hdvd
  by_contra hneg
  push_neg at hneg
  nlinarith

theorem qnorm_den_pos (x : Q2) (h : x.den ≠ 0) : 0 < (qnorm x).den := by
  unfold qnorm
  split
  · exact qnormPos_den_pos _ (by simp; omega)
  · exact qnormPos_den_pos _ (by omega)

theorem roPos_den_pos (q : Q2) : 0 < (roPos q).den := by
  show 0 < (qnorm (qmul ⟨rhe (qmul q (pow2 (-(qlog2 q - 52)))), 1⟩ (pow2 (qlog2 q - 52)))).den
  apply qnorm_den_pos
  have := pow2_den_pos (qlog2 q - 52)
  simp only [qmul]
  intro hc
  rw [one_mul] at hc
  omega

theorem ro_den_pos (q : Q2) : 0 < (ro q).den := by
  unfold ro
  split
  · norm_num
  · split
    · exact roPos_den_pos q
    · show 0 < (qneg (roPos (qneg q))).den
      have := roPos_den_pos (qneg q)
      simpa [qneg] using this

theorem rhe_qadd_500 (x : Q2) (hd : 0 < x.den) : rhe (qadd x ⟨500, 1⟩) = rhe x + 500 := by
  have h1 : qadd x ⟨500, 1⟩ = ⟨x.num + 500 * x.den, x.den⟩ := by
    simp [qadd]
  rw [h1]
  have hf : qfloor ⟨x.num + 500 * x.den, x.den⟩ = qfloor x + 500 := by
    unfold qfloor
    rw [Int.fdiv_eq_ediv _ (le_of_lt hd), Int.fdiv_eq_ediv _ (le_of_lt hd)]
    exact Int.add_mul_ediv_right x.num 500 (by omega)
  have hfr : qsub (⟨x.num + 500 * x.den, x.den⟩ : Q2) ⟨qfloor x + 500, 1⟩ =
      qsub x ⟨qfloor x, 1⟩ := by
    have hnum : (x.num + 500 * x.den) * 1 - (qfloor x + 500) * x.den =
        x.num * 1 - qfloor x * x.den := by ring
    simp only [qsub, hnum]
  simp only [rhe, hf, hfr]
  split_ifs <;> omega

/-! ## Claim theorems: savings formula (C2, C10) -/

/-- Claim C2, counterexample: at weekly rate 3.5 and average amount 300 the
code returns `monthly_spend = 4546` (the exact float product is 4546.5 and
Python `round` ties to even), `annual_cashback = 5456` (12 times the
unrounded 454.65, not 12 times the rounded 455) and
`total_annual_savings = 12730`, so the claimed 4547/5460/12734 are false. -/
theorem calculate_savings_spec_example_refuted :
    (calculate_savings ⟨7, 2⟩ ⟨300, 1⟩).monthly_spend = 4546 ∧
    (calculate_savings ⟨7, 2⟩ ⟨300, 1⟩).annual_cashback = 5456 ∧
    (calculate_savings ⟨7, 2⟩ ⟨300, 1⟩).total_annual_savings = 12730 ∧
    ¬((calculate_savings ⟨7, 2⟩ ⟨300, 1⟩).monthly_spend = 4547 ∧
      (calculate_savings ⟨7, 2⟩ ⟨300, 1⟩).annual_cashback = 5460 ∧
      (calculate_savings ⟨7, 2⟩ ⟨300, 1⟩).total_annual_savings = 12734) := by
  decide

/-- Claim C2, amended: `calculate_savings(3.5, 300)` returns
weekly_spend 1050, monthly_spend 4546, annual_spend 54600 (fee waived,
annual_fee 0), monthly_cashback 455, annual_cashback 5456,
monthly_delivery_savings 606, annual_delivery_savings 7274,
total_annual_savings 12730, net_first_year 13230 = total + 500, and
net_subsequent_years 12730, all rounded to whole units. -/
theorem calculate_savings_at_example_rate :
    calculate_savings ⟨7, 2⟩ ⟨300, 1⟩ =
      ⟨1050, 4546, 54600, 455, 5456, 606, 7274, 12730, 0, true, 13230, 12730⟩ ∧
    (calculate_savings ⟨7, 2⟩ ⟨300, 1⟩).net_first_year =
      (calculate_savings ⟨7, 2⟩ ⟨300, 1⟩).total_annual_savings + 500 := by
  decide

/-- Claim C10, counterexample: at weekly_orders = 2^44 and amount 300 the
signup-bonus addition rounds (the unit in the last place of the total
exceeds the bonus precision), and the two rounded outputs differ by 496,
not 500. -/
theorem net_first_year_bonus_gap_large_input :
    (calculate_savings ⟨17592186044416, 1⟩ ⟨300, 1⟩).net_first_year ≠
      (calculate_savings ⟨17592186044416, 1⟩ ⟨300, 1⟩).net_subsequent_years + 500 ∧
    (calculate_savings ⟨17592186044416, 1⟩ ⟨300, 1⟩).net_first_year =
      (calculate_savings ⟨17592186044416, 1⟩ ⟨300, 1⟩).net_subsequent_years + 496 := by
  decide

/-- Claim C10, amended: whenever the float addition of the 500 signup bonus
to the (exactly computed) `total_annual_savings - annual_fee` float is
exact - which holds for every realistic order volume - the rounded outputs
satisfy `net_first_year = net_subsequent_years + 500`; rounding of the two
outputs never breaks the relation because round-half-to-even commutes with
adding the even integer 500. -/
theorem net_first_year_signup_bonus_relation (w a : Q2)
    (hexact : fadd (savings_net_base w a) ⟨500, 1⟩ = qadd (savings_net_base w a) ⟨500, 1⟩) :
    (calculate_savings w a).net_first_year = (calculate_savings w a).net_subsequent_years + 500 := by
  have h1 : (calculate_savings w a).net_first_year = rhe (fadd (savings_net_base w a) ⟨500, 1⟩) :=
    rfl
  have h2 : (calculate_savings w a).net_subsequent_years = rhe (savings_net_base w a) := rfl
  have hden : 0 < (savings_net_base w a).den := by
    show 0 < (fsub _ _).den
    exact ro_den_pos _
  rw [h1, h2, hexact, rhe_qadd_500 _ hden]

/-- Witness for `net_first_year_signup_bonus_relation` at (3.5, 300). -/
theorem net_first_year_signup_bonus_relation_witness :
    (calculate_savings ⟨7, 2⟩ ⟨300, 1⟩).net_first_year =
      (calculate_savings ⟨7, 2⟩ ⟨300, 1⟩).net_subsequent_years + 500 :=
  net_first_year_signup_bonus_relation ⟨7, 2⟩ ⟨300, 1⟩ (by decide)

/-! ## Claim theorems: identity + profile creation (C8) -/

/-- Claim C8: `create_user` commits the Identity row in a first transaction
and only then inserts the Profile row in a second one (postgres_client.py
lines 113-120).  A run that stops after the first commit leaves a durable
state with an Identity and no Profile, so creation is not atomic; only the
complete run restores the pairing. -/
theorem create_user_commits_identity_before_profile :
    PairedInv (create_user emptyPg "9876543210".toList) ∧
    ¬ PairedInv (create_user_commit1 emptyPg "9876543210".toList) := by
  constructor
  · refine ⟨?_, ?_⟩ <;> decide
  · intro ⟨h1, _⟩
    have := h1 ⟨0, "9876543210".toList, "3210".toList⟩ (by decide)
    obtain ⟨p, hp, _⟩ := this
    simp [create_user_commit1, emptyPg] at hp

/-! ## Helper lemmas: ephemeral store -/

theorem msgs_update_session_metadata (st : RedisState) (sid : String) (d : MetaDelta)
    (sid' : String) : (update_session_metadata st sid d).msgs sid' = st.msgs sid' := by
  unfold update_session_metadata hsetMeta
  split <;> rfl

theorem msgs_add_message_self (st : RedisState) (sid r c : String) :
    (add_message st sid r c).msgs sid = st.msgs sid ++ [⟨r, c⟩] := by
  unfold add_message
  rw [msgs_update_session_metadata]
  simp

theorem mem_msgs_add_message (st : RedisState) (sid sid' r c : String) (m : RMsg)
    (h : m ∈ st.msgs sid') : m ∈ (add_message st sid r c).msgs sid' := by
  unfold add_message
  rw [msgs_update_session_metadata]
  by_cases hs : sid' = sid
  · subst hs
    simp only [if_pos rfl]
    exact List.mem_append_left _ h
  · simpa [hs] using h

theorem mem_user_msg_process_message_redis (st : RedisState) (sid input : String)
    (ranW : Bool) (g : GraphResult) (h : input ≠ "") :
    (⟨"user", input⟩ : RMsg) ∈ (process_message_redis st sid input ranW g).msgs sid := by
  have key : ∀ stx : RedisState, (⟨"user", input⟩ : RMsg) ∈ (add_message stx sid "user" input).msgs sid := by
    intro stx
    rw [msgs_add_message_self]
    simp
  by_cases hresp : g.response = "" <;> by_cases hid : g.identity_verified <;>
    simp only [process_message_redis, h, hresp, hid, ne_eq, not_false_eq_true,
      not_true_eq_false, ite_true, ite_false, if_true, if_false,
      msgs_update_session_metadata] <;>
    first
      | exact key _
      | exact mem_msgs_add_message _ _ _ _ _ _ (key _)

/-! ## Claim theorems: reply-generation failure (C7) -/

/-- Claim C7, counterexample: with no attached client, a transport-level
exception in the direct `call_openrouter` call propagates out of the graph
(response_node.py line 97 is not inside a `try`); `process_message` catches
it and returns its own fixed apology, but the extraction and persistence
nodes never ran and the utterance of the user was not appended to the session. -/
theorem reply_failure_transport_aborts_pipeline :
    (process_message_turn emptyRedis "s" "hello" 0 none .netRaise).response =
      apology_process_message ∧
    (process_message_turn emptyRedis "s" "hello" 0 none .netRaise).extraction_ran = false ∧
    (process_message_turn emptyRedis "s" "hello" 0 none .netRaise).redis.msgs "s" = [] := by
  exact ⟨rfl, rfl, rfl⟩

/-- Claim C7, amended: when the reply-generation failure surfaces inside
`response_node` - an exception from the call on an attached client, or an HTTP
failure of the direct API call - a fixed apology string becomes the
response and the pipeline still runs to completion: the extraction and
memory-persistence steps execute, and the nonempty user utterance is
appended to the ephemeral message list of the session. -/
theorem reply_failure_pipeline_continues :
    (∀ (st : RedisState) (sid input : String) (tc : ℤ) (orc : ORCall),
      (process_message_turn st sid input tc (some .raise) orc).response =
        apology_response_node ∧
      (process_message_turn st sid input tc (some .raise) orc).extraction_ran = true ∧
      (process_message_turn st sid input tc (some .raise) orc).writer_ran = true ∧
      (input ≠ "" →
        (⟨"user", input⟩ : RMsg) ∈
          (process_message_turn st sid input tc (some .raise) orc).redis.msgs sid)) ∧
    (∀ (st : RedisState) (sid input : String) (tc : ℤ),
      (process_message_turn st sid input tc none .httpError).response = apology_openrouter ∧
      (process_message_turn st sid input tc none .httpError).extraction_ran = true) := by
  constructor
  · intro st sid input tc orc
    refine ⟨rfl, rfl, rfl, fun h => ?_⟩
    show (⟨"user", input⟩ : RMsg) ∈
      (process_message_redis st sid input true
        ⟨apology_response_node, tc + 1, true, none, none⟩).msgs sid
    exact mem_user_msg_process_message_redis st sid input true _ h
  · intro st sid input tc
    exact ⟨rfl, rfl⟩

/-- Witness for `reply_failure_pipeline_continues` on a concrete turn. -/
theorem reply_failure_pipeline_continues_witness :
    (process_message_turn emptyRedis "s" "hi" 0 (some .raise) .httpError).response =
      apology_response_node ∧
    (⟨"user", "hi"⟩ : RMsg) ∈
      (process_message_turn emptyRedis "s" "hi" 0 (some .raise) .httpError).redis.msgs "s" :=
  ⟨(reply_failure_pipeline_continues.1 emptyRedis "s" "hi" 0 .httpError).1,
    (reply_failure_pipeline_continues.1 emptyRedis "s" "hi" 0 .httpError).2.2.2 (by decide)⟩

theorem update_session_metadata_eq_hset (st : RedisState) (sid : String) (d : MetaDelta)
    (h : d ≠ emptyDelta) : update_session_metadata st sid d = hsetMeta st sid d := by
  unfold update_session_metadata
  exact if_neg h

theorem turnCountInv_add_message (st : RedisState) (sid r c : String) :
    TurnCountInv (add_message st sid r c) sid := by
  unfold TurnCountInv metaTurnCount get_messages
  simp only [add_message]
  rw [update_session_metadata_eq_hset _ _ _ (by simp [emptyDelta])]
  simp [hsetMeta, applyDelta, emptyDelta]

theorem turnCountInv_update_no_tc (st : RedisState) (sid : String) (d : MetaDelta)
    (hd : d.turn_count = none) (h : TurnCountInv st sid) :
    TurnCountInv (update_session_metadata st sid d) sid := by
  unfold update_session_metadata
  split
  · exact h
  · unfold TurnCountInv metaTurnCount get_messages at h ⊢
    rcases hm : st.meta sid with _ | m
    · rw [hm] at h
      simp at h
    · rw [hm] at h
      simp at h
      simp [hsetMeta, applyDelta, hd, hm, h]

theorem turnCountInv_after_identity_update (st' : RedisState) (sid : String) (g : GraphResult)
    (h : TurnCountInv st' sid) :
    TurnCountInv
      (if g.identity_verified = true then
        update_session_metadata st' sid
          { emptyDelta with
            identity_verified := some true
            user_id := some g.user_id
            phone_number := some g.phone_number }
      else st') sid := by
  split
  · exact turnCountInv_update_no_tc _ _ _ rfl h
  · exact h

/-! ## Claim theorems: ephemeral turn counter (C1) -/

/-- Claim C1, counterexample: starting from a fresh session (where the
counter equals the list length, both 0), the writer node appends the user
and assistant turns and then overwrites `turn_count` with the graph-state
counter 1 (memory_writer.py lines 39-52), leaving counter 1 against list
length 2 - so `memory_writer_node` does not preserve the equality. -/
theorem memory_writer_overwrites_turn_count :
    TurnCountInv (store_session_metadata emptyRedis "s" none "discovery" none false) "s" ∧
    ¬ TurnCountInv
        (memory_writer_redis (store_session_metadata emptyRedis "s" none "discovery" none false)
          "s" "hi" "hello" 1 false) "s" ∧
    metaTurnCount
        (memory_writer_redis (store_session_metadata emptyRedis "s" none "discovery" none false)
          "s" "hi" "hello" 1 false) "s" = some 1 ∧
    (get_messages
        (memory_writer_redis (store_session_metadata emptyRedis "s" none "discovery" none false)
          "s" "hi" "hello" 1 false) "s" none).length = 2 := by
  refine ⟨?_, ?_, ?_, ?_⟩ <;>
    first
      | (unfold TurnCountInv metaTurnCount get_messages; decide)
      | decide

/-- Claim C1, amended: after any `add_message` the `turn_count`
metadata equals the length of the list returned by `get_messages` with no
limit; and `process_message` re-establishes the equality by the end of any
turn that appends at least one message (nonempty user input or nonempty
response), its trailing `add_message` calls overwriting the counter the
writer node had desynchronised. -/
theorem ephemeral_turn_count_invariant :
    (∀ (st : RedisState) (sid role content : String),
      TurnCountInv (add_message st sid role content) sid) ∧
    (∀ (st : RedisState) (sid input : String) (ranWriter : Bool) (g : GraphResult),
      input ≠ "" ∨ g.response ≠ "" →
      TurnCountInv (process_message_redis st sid input ranWriter g) sid) := by
  refine ⟨fun st sid r c => turnCountInv_add_message st sid r c, ?_⟩
  intro st sid input ranWriter g h
  by_cases hresp : g.response = ""
  · have hin : input ≠ "" := by
      rcases h with h | h
      · exact h
      · exact absurd hresp h
    simp only [process_message_redis, hin, hresp, ne_eq, not_false_eq_true, not_true_eq_false,
      ite_true, ite_false, if_true, if_false]
    exact turnCountInv_after_identity_update _ _ _ (turnCountInv_add_message _ _ _ _)
  · simp only [process_message_redis, hresp, ne_eq, not_false_eq_true, not_true_eq_false,
      ite_true, ite_false, if_true, if_false]
    exact turnCountInv_after_identity_update _ _ _ (turnCountInv_add_message _ _ _ _)

/-- Witness for `ephemeral_turn_count_invariant` on a concrete turn. -/
theorem ephemeral_turn_count_invariant_witness :
    TurnCountInv (process_message_redis emptyRedis "s" "hi" true ⟨"yo", 1, false, none, none⟩)
      "s" :=
  ephemeral_turn_count_invariant.2 emptyRedis "s" "hi" true ⟨"yo", 1, false, none, none⟩
    (Or.inl (by decide))

/-! ## Helper lemmas: insight store -/

theorem filter_map_pres {α : Type} (f : α → α) (p : α → Bool) (hp : ∀ r, p (f r) = p r) :
    ∀ l : List α, (l.map f).filter p = (l.filter p).map f := by
  intro l
  induction l with
  | nil => rfl
  | cons a t ih =>
    simp only [List.map_cons, List.filter_cons, hp a]
    cases hap : p a <;> simp [ih]

theorem matchesTriple_upsertRow (u' ty' k' v : String) (n : Option Q2) (c : Q2)
    (s : Option String) (r : InsightRow) :
    matchesTriple u' ty' k' (upsertRow v n c s r) = matchesTriple u' ty' k' r := by
  simp [matchesTriple, upsertRow]

theorem matchesTriple_ite_upsert (u ty k u' ty' k' v : String) (n : Option Q2) (c : Q2)
    (s : Option String) (r : InsightRow) :
    matchesTriple u' ty' k'
      (if matchesTriple u ty k r then upsertRow v n c s r else r) =
      matchesTriple u' ty' k' r := by
  split
  · exact matchesTriple_upsertRow u' ty' k' v n c s r
  · rfl

theorem store_insight_bound (rows : List InsightRow) (u ty k v : String) (n : Option Q2)
    (c : Q2) (s : Option String) (u' ty' k' : String)
    (h : (rows.filter (matchesTriple u' ty' k')).length ≤ 1) :
    ((store_insight rows u ty k v n c s).filter (matchesTriple u' ty' k')).length ≤ 1 := by
  unfold store_insight
  split
  · rw [filter_map_pres _ _ (matchesTriple_ite_upsert u ty k u' ty' k' v n c s)]
    simpa using h
  · rename_i hany
    rw [List.filter_append]
    by_cases hm : matchesTriple u' ty' k' (⟨u, ty, k, v, n, c, s⟩ : InsightRow) = true
    · simp only [matchesTriple] at hm
      obtain ⟨⟨h1, h2⟩, h3⟩ := by simpa using hm
      subst h1; subst h2; subst h3
      have hnil : rows.filter (matchesTriple u ty k) = [] := by
        rw [List.filter_eq_nil_iff]
        intro a ha hpa
        exact hany (List.any_eq_true.mpr ⟨a, ha, hpa⟩)
      rw [hnil]
      simp [matchesTriple]
    · rw [List.length_append]
      have : ([(⟨u, ty, k, v, n, c, s⟩ : InsightRow)].filter (matchesTriple u' ty' k')).length = 0 := by
        simp [List.filter_cons, hm]
      omega

theorem store_insight_result (rows : List InsightRow) (u ty k v : String) (n : Option Q2)
    (c : Q2) (s : Option String)
    (h : (rows.filter (matchesTriple u ty k)).length ≤ 1) :
    ∃ r, (store_insight rows u ty k v n c s).filter (matchesTriple u ty k) = [r] ∧
      r.insight_value = v ∧ r.numeric_value = n ∧ r.confidence = c ∧
      matchesTriple u ty k r = true := by
  unfold store_insight
  split
  · rename_i hany
    rw [filter_map_pres _ _ (matchesTriple_ite_upsert u ty k u ty k v n c s)]
    have hnonnil : rows.filter (matchesTriple u ty k) ≠ [] := by
      obtain ⟨x, hx, hpx⟩ := List.any_eq_true.mp hany
      intro hnil
      exact (List.filter_eq_nil_iff.mp hnil) x hx hpx
    have hlen : (rows.filter (matchesTriple u ty k)).length = 1 := by
      have := List.length_pos.mpr hnonnil
      omega
    obtain ⟨r0, hr0⟩ := List.length_eq_one.mp hlen
    have hm : matchesTriple u ty k r0 = true := by
      have hmem : r0 ∈ rows.filter (matchesTriple u ty k) := by
        rw [hr0]
        exact List.mem_singleton_self _
      exact (List.mem_filter.mp hmem).2
    rw [hr0]
    refine ⟨upsertRow v n c s r0, ?_, rfl, rfl, rfl, ?_⟩
    · simp [hm]
    · rw [matchesTriple_upsertRow]
      exact hm
  · rename_i hany
    rw [List.filter_append]
    have hnil : rows.filter (matchesTriple u ty k) = [] := by
      rw [List.filter_eq_nil_iff]
      intro a ha hpa
      exact hany (List.any_eq_true.mpr ⟨a, ha, hpa⟩)
    rw [hnil]
    refine ⟨⟨u, ty, k, v, n, c, s⟩, ?_, rfl, rfl, rfl, ?_⟩
    · simp [matchesTriple]
    · simp [matchesTriple]

theorem insight_reachable_bound (rows : List InsightRow) (h : InsightReachable rows)
    (u' ty' k' : String) : (rows.filter (matchesTriple u' ty' k')).length ≤ 1 := by
  induction h with
  | empty => simp
  | step rows u ty k v n c s hr ih => exact store_insight_bound rows u ty k v n c s u' ty' k' ih

/-! ## Claim theorems: insight upsert (C4) -/

/-- Claim C4: in every insight-table state reachable from empty there is at
most one row per `(user, insight_type, insight_key)` triple, and calling
`store_insight` twice with the same triple leaves exactly one row for the
triple, holding the value, numeric value and confidence of the second
call. -/
theorem store_insight_upsert_semantics :
    (∀ rows, InsightReachable rows → ∀ u ty k : String,
      (rows.filter (matchesTriple u ty k)).length ≤ 1) ∧
    (∀ (rows : List InsightRow) (u ty k v1 : String) (n1 : Option Q2) (c1 : Q2)
        (s1 : Option String) (v2 : String) (n2 : Option Q2) (c2 : Q2) (s2 : Option String),
      InsightReachable rows →
      ∃ r, (store_insight (store_insight rows u ty k v1 n1 c1 s1) u ty k v2 n2 c2 s2).filter
          (matchesTriple u ty k) = [r] ∧
        r.insight_value = v2 ∧ r.numeric_value = n2 ∧ r.confidence = c2 ∧
        matchesTriple u ty k r = true) := by
  constructor
  · intro rows h u ty k
    exact insight_reachable_bound rows h u ty k
  · intro rows u ty k v1 n1 c1 s1 v2 n2 c2 s2 h
    have h1 := insight_reachable_bound rows h u ty k
    have h2 := store_insight_bound rows u ty k v1 n1 c1 s1 u ty k h1
    exact store_insight_result _ u ty k v2 n2 c2 s2 h2

/-- Witness for `store_insight_upsert_semantics` on a concrete double upsert. -/
theorem store_insight_upsert_semantics_witness :
    ∃ r, (store_insight
          (store_insight [] "u1" "spending" "weekly_orders" "3.5" (some ⟨7, 2⟩) ⟨1, 1⟩ none)
          "u1" "spending" "weekly_orders" "4.0" (some ⟨4, 1⟩) ⟨1, 1⟩ none).filter
        (matchesTriple "u1" "spending" "weekly_orders") = [r] ∧
      r.insight_value = "4.0" ∧ r.numeric_value = some ⟨4, 1⟩ ∧ r.confidence = ⟨1, 1⟩ ∧
      matchesTriple "u1" "spending" "weekly_orders" r = true :=
  store_insight_upsert_semantics.2 [] "u1" "spending" "weekly_orders" "3.5" (some ⟨7, 2⟩)
    ⟨1, 1⟩ none "4.0" (some ⟨4, 1⟩) ⟨1, 1⟩ none InsightReachable.empty

/-! ## Helper lemmas: profile merge -/

theorem foldl_lookup_const (l : List (String × JLeaf)) (k : String) (acc : Option JLeaf)
    (h : ∀ e ∈ l, (e.1 == k) = false) :
    l.foldl (fun a e => if e.1 == k then some e.2 else a) acc = acc := by
  induction l generalizing acc with
  | nil => rfl
  | cons x t ih =>
    simp only [List.foldl_cons, h x (List.mem_cons_self x t)]
    exact ih acc (fun e he => h e (List.mem_cons_of_mem x he))

theorem lookupLast_of_nodup_mem (d : List (String × JLeaf))
    (hd : (d.map Prod.fst).Nodup) (e : String × JLeaf) (he : e ∈ d) :
    lookupLast d e.1 = some e.2 := by
  induction d with
  | nil => cases he
  | cons x t ih =>
    have hx : x.1 ∉ t.map Prod.fst := (List.nodup_cons.mp (by simpa using hd)).1
    rcases List.mem_cons.mp he with he | he
    · subst he
      show List.foldl _ (if e.1 == e.1 then some e.2 else none) t = some e.2
      rw [if_pos (by simp)]
      apply foldl_lookup_const
      intro y hy
      have : y.1 ≠ e.1 := by
        intro hcon
        exact hx (hcon ▸ List.mem_map_of_mem Prod.fst hy)
      simpa using this
    · have hne : (x.1 == e.1) = false := by
        have : x.1 ≠ e.1 := by
          intro hcon
          exact hx (by rw [hcon]; exact List.mem_map_of_mem Prod.fst he)
        simpa using this
      show List.foldl _ (if x.1 == e.1 then some x.2 else none) t = some e.2
      rw [if_neg (by simp [hne])]
      exact ih (List.nodup_cons.mp (by simpa using hd)).2 he

theorem dictOverwrite_fst (d : List (String × JLeaf)) (e : String × JLeaf) :
    (dictOverwrite d e).1 = e.1 := by
  unfold dictOverwrite
  cases lookupLast d e.1 <;> rfl

theorem dictUpdate_eq_overwrite (m d : List (String × JLeaf)) :
    dictUpdate m d = m.map (dictOverwrite d) ++ d.filter (fun e => !keyIn e.1 m) := by
  unfold dictUpdate dictOverwrite
  rfl

theorem keyIn_append (k : String) (l1 l2 : List (String × JLeaf)) :
    keyIn k (l1 ++ l2) = (keyIn k l1 || keyIn k l2) := by
  simp [keyIn, List.any_append]

theorem keyIn_map_overwrite (k : String) (d m : List (String × JLeaf)) :
    keyIn k (m.map (dictOverwrite d)) = keyIn k m := by
  unfold keyIn
  rw [List.any_map]
  have : ((fun e : String × JLeaf => e.1 == k) ∘ dictOverwrite d) =
      (fun e : String × JLeaf => e.1 == k) := by
    funext e
    simp [Function.comp, dictOverwrite_fst]
  rw [this]

theorem keyIn_of_mem (m : List (String × JLeaf)) (e : String × JLeaf) (he : e ∈ m) :
    keyIn e.1 m = true := by
  unfold keyIn
  exact List.any_eq_true.mpr ⟨e, he, by simp⟩

theorem keyIn_dictUpdate_of_mem (m d : List (String × JLeaf)) (e : String × JLeaf)
    (he : e ∈ d) : keyIn e.1 (dictUpdate m d) = true := by
  rw [dictUpdate_eq_overwrite, keyIn_append, keyIn_map_overwrite]
  by_cases hk : keyIn e.1 m = true
  · simp [hk]
  · have hmem : e ∈ d.filter (fun e => !keyIn e.1 m) := by
      rw [List.mem_filter]
      exact ⟨he, by simp [hk]⟩
    simp [keyIn_of_mem _ _ hmem]

theorem dictOverwrite_idem (d : List (String × JLeaf)) (e : String × JLeaf) :
    dictOverwrite d (dictOverwrite d e) = dictOverwrite d e := by
  unfold dictOverwrite
  cases h : lookupLast d e.1 with
  | none => simp [h]
  | some nv => simp [h]

theorem dictOverwrite_of_nodup_mem (d : List (String × JLeaf))
    (hd : (d.map Prod.fst).Nodup) (e : String × JLeaf) (he : e ∈ d) :
    dictOverwrite d e = e := by
  unfold dictOverwrite
  rw [lookupLast_of_nodup_mem d hd e he]

theorem dictUpdate_self (d : List (String × JLeaf)) (hd : (d.map Prod.fst).Nodup) :
    dictUpdate d d = d := by
  rw [dictUpdate_eq_overwrite]
  have h1 : d.map (dictOverwrite d) = d := by
    rw [List.map_congr_left (fun e he => dictOverwrite_of_nodup_mem d hd e he)]
    exact List.map_id d
  have h2 : d.filter (fun e => !keyIn e.1 d) = [] := by
    rw [List.filter_eq_nil_iff]
    intro e he
    simp [keyIn_of_mem d e he]
  rw [h1, h2, List.append_nil]

theorem dictUpdate_idem (m d : List (String × JLeaf)) (hd : (d.map Prod.fst).Nodup) :
    dictUpdate (dictUpdate m d) d = dictUpdate m d := by
  conv_lhs => rw [dictUpdate_eq_overwrite (dictUpdate m d) d]
  have h2 : d.filter (fun e => !keyIn e.1 (dictUpdate m d)) = [] := by
    rw [List.filter_eq_nil_iff]
    intro e he
    simp [keyIn_dictUpdate_of_mem m d e he]
  rw [h2, List.append_nil]
  conv_lhs => rw [dictUpdate_eq_overwrite m d]
  rw [List.map_append, List.map_map]
  have h3 : (dictOverwrite d ∘ dictOverwrite d) = dictOverwrite d :=
    funext (fun e => dictOverwrite_idem d e)
  rw [h3]
  have h4 : (d.filter (fun e => !keyIn e.1 m)).map (dictOverwrite d) =
      d.filter (fun e => !keyIn e.1 m) := by
    rw [List.map_congr_left (fun e he =>
      dictOverwrite_of_nodup_mem d hd e (List.mem_of_mem_filter he))]
    exact List.map_id _
  rw [h4, ← dictUpdate_eq_overwrite]

theorem mem_dedupAppend_left (l d : List JLeaf) (a : JLeaf) (h : a ∈ l) :
    a ∈ dedupAppend l d := by
  unfold dedupAppend
  induction d generalizing l with
  | nil => exact h
  | cons x t ih =>
    simp only [List.foldl_cons]
    split
    · exact ih l h
    · exact ih (l ++ [x]) (List.mem_append_left _ h)

theorem mem_dedupAppend_right (l d : List JLeaf) (a : JLeaf) (h : a ∈ d) :
    a ∈ dedupAppend l d := by
  induction d generalizing l with
  | nil => cases h
  | cons x t ih =>
    show a ∈ List.foldl _ (if x ∈ l then l else l ++ [x]) t
    rcases List.mem_cons.mp h with h | h
    · subst h
      by_cases hx : a ∈ l
      · rw [if_pos hx]
        exact mem_dedupAppend_left l t a hx
      · rw [if_neg hx]
        exact mem_dedupAppend_left _ t a (List.mem_append_right _ (List.mem_singleton_self a))
    · split
      · exact ih l h
      · exact ih _ h

theorem dedupAppend_of_subset (l d : List JLeaf) (h : ∀ a ∈ d, a ∈ l) :
    dedupAppend l d = l := by
  induction d generalizing l with
  | nil => rfl
  | cons x t ih =>
    show List.foldl _ (if x ∈ l then l else l ++ [x]) t = l
    rw [if_pos (h x (List.mem_cons_self x t))]
    exact ih l (fun a ha => h a (List.mem_cons_of_mem x ha))

theorem dedupAppend_self (d : List JLeaf) : dedupAppend d d = d :=
  dedupAppend_of_subset d d (fun _ h => h)

theorem dedupAppend_idem (l d : List JLeaf) :
    dedupAppend (dedupAppend l d) d = dedupAppend l d :=
  dedupAppend_of_subset _ d (fun a ha => mem_dedupAppend_right l d a ha)

theorem mergeField_self (v : FieldVal) (hv : wfFieldVal v) : mergeField v v = v := by
  cases v with
  | jdict d => exact congrArg FieldVal.jdict (dictUpdate_self d hv)
  | jlist l => exact congrArg FieldVal.jlist (dedupAppend_self l)
  | jscalar x => rfl

theorem mergeField_idem (c v : FieldVal) (hv : wfFieldVal v) :
    mergeField (mergeField c v) v = mergeField c v := by
  cases c with
  | jdict m =>
    cases v with
    | jdict d => exact congrArg FieldVal.jdict (dictUpdate_idem m d hv)
    | jlist l => exact mergeField_self _ hv
    | jscalar x => rfl
  | jlist l =>
    cases v with
    | jdict d => exact mergeField_self _ hv
    | jlist d => exact congrArg FieldVal.jlist (dedupAppend_idem l d)
    | jscalar x => rfl
  | jscalar x =>
    cases v with
    | jdict d => exact mergeField_self _ hv
    | jlist d => exact mergeField_self _ hv
    | jscalar y => rfl

theorem getField_setField_self (p : ProfileRec) (f : ProfileField) (v : FieldVal) :
    getField (setField p f v) f = v := by
  cases f <;> rfl

theorem getField_setField_ne (p : ProfileRec) (k f : ProfileField) (v : FieldVal)
    (h : k ≠ f) : getField (setField p k v) f = getField p f := by
  cases k <;> cases f <;> first | rfl | exact absurd rfl h

theorem profileRec_ext (p q : ProfileRec) (h : ∀ f, getField p f = getField q f) : p = q := by
  cases p
  cases q
  have h1 := h .spending_patterns
  have h2 := h .food_habits
  have h3 := h .financial_goals
  have h4 := h .current_cards
  have h5 := h .preferences
  have h6 := h .pain_points
  simp only [getField] at h1 h2 h3 h4 h5 h6
  simp [h1, h2, h3, h4, h5, h6]

theorem getField_merge_fold (us : List (ProfileField × FieldVal)) (p : ProfileRec)
    (f : ProfileField) (hnd : (us.map Prod.fst).Nodup) :
    getField (us.foldl (fun acc kv => setField acc kv.1 (mergeField (getField acc kv.1) kv.2)) p)
        f =
      match us.find? (fun kv => decide (kv.1 = f)) with
      | some kv => mergeField (getField p f) kv.2
      | none => getField p f := by
  induction us generalizing p with
  | nil => rfl
  | cons kv rest ih =>
    have hnotin : kv.1 ∉ rest.map Prod.fst := (List.nodup_cons.mp (by simpa using hnd)).1
    have hndrest : (rest.map Prod.fst).Nodup := (List.nodup_cons.mp (by simpa using hnd)).2
    by_cases hk : kv.1 = f
    · subst hk
      rw [List.find?_cons_of_pos _ (by simp)]
      simp only [List.foldl_cons]
      rw [ih _ hndrest]
      have hnone : rest.find? (fun e => decide (e.1 = kv.1)) = none := by
        rw [List.find?_eq_none]
        intro e he
        simp only [decide_eq_true_eq]
        intro hcon
        exact hnotin (hcon ▸ List.mem_map_of_mem Prod.fst he)
      rw [hnone, getField_setField_self]
    · rw [List.find?_cons_of_neg _ (by simp [hk])]
      simp only [List.foldl_cons]
      rw [ih _ hndrest, getField_setField_ne _ _ _ _ hk]

theorem getField_set_fold (us : List (ProfileField × FieldVal)) (p : ProfileRec)
    (f : ProfileField) (hnd : (us.map Prod.fst).Nodup) :
    getField (us.foldl (fun acc kv => setField acc kv.1 kv.2) p) f =
      match us.find? (fun kv => decide (kv.1 = f)) with
      | some kv => kv.2
      | none => getField p f := by
  induction us generalizing p with
  | nil => rfl
  | cons kv rest ih =>
    have hnotin : kv.1 ∉ rest.map Prod.fst := (List.nodup_cons.mp (by simpa using hnd)).1
    have hndrest : (rest.map Prod.fst).Nodup := (List.nodup_cons.mp (by simpa using hnd)).2
    by_cases hk : kv.1 = f
    · subst hk
      rw [List.find?_cons_of_pos _ (by simp)]
      simp only [List.foldl_cons]
      rw [ih _ hndrest]
      have hnone : rest.find? (fun e => decide (e.1 = kv.1)) = none := by
        rw [List.find?_eq_none]
        intro e he
        simp only [decide_eq_true_eq]
        intro hcon
        exact hnotin (hcon ▸ List.mem_map_of_mem Prod.fst he)
      rw [hnone, getField_setField_self]
    · rw [List.find?_cons_of_neg _ (by simp [hk])]
      simp only [List.foldl_cons]
      rw [ih _ hndrest, getField_setField_ne _ _ _ _ hk]

/-! ## Claim theorems: profile merge idempotency (C5) -/

/-- Claim C5: `update_user_profile` is idempotent - applying the same
dict-shaped delta twice (kwargs cannot repeat a keyword and a dict payload
cannot repeat a key, which is what the two `Nodup` hypotheses state) yields
the same profile as applying it once, whether or not a profile row existed,
for map-merge, list-dedup-append and replacement fields alike. -/
theorem update_user_profile_idempotent (profile : Option ProfileRec)
    (updates : List (ProfileField × FieldVal))
    (hnd : (updates.map Prod.fst).Nodup) (hwf : ∀ kv ∈ updates, wfFieldVal kv.2) :
    update_user_profile (some (update_user_profile profile updates)) updates =
      update_user_profile profile updates := by
  apply profileRec_ext
  intro f
  show getField (updates.foldl
      (fun acc kv => setField acc kv.1 (mergeField (getField acc kv.1) kv.2))
      (update_user_profile profile updates)) f =
    getField (update_user_profile profile updates) f
  rw [getField_merge_fold _ _ _ hnd]
  cases hfind : updates.find? (fun kv => decide (kv.1 = f)) with
  | none => rfl
  | some kv =>
    have hkv_mem : kv ∈ updates := List.mem_of_find?_eq_some hfind
    have hwfv : wfFieldVal kv.2 := hwf kv hkv_mem
    cases profile with
    | some p =>
      have hr : getField (update_user_profile (some p) updates) f =
          mergeField (getField p f) kv.2 := by
        show getField (updates.foldl
            (fun acc kv => setField acc kv.1 (mergeField (getField acc kv.1) kv.2)) p) f = _
        rw [getField_merge_fold _ _ _ hnd, hfind]
      rw [hr]
      exact mergeField_idem _ _ hwfv
    | none =>
      have hr : getField (update_user_profile none updates) f = kv.2 := by
        show getField (updates.foldl (fun acc kv => setField acc kv.1 kv.2) defaultProfile) f = _
        rw [getField_set_fold _ _ _ hnd, hfind]
      rw [hr]
      exact mergeField_self _ hwfv

/-- Witness for `update_user_profile_idempotent`: a delta with a map field,
a list field and a replacement over an existing profile. -/
theorem update_user_profile_idempotent_witness :
    update_user_profile
        (some (update_user_profile
          (some { defaultProfile with
            spending_patterns := .jdict [("swiggy_frequency", .jstr "daily")]
            pain_points := .jlist [.jstr "annual fee"] })
          [(.spending_patterns, .jdict [("avg_order_amount", .jnum ⟨300, 1⟩)]),
            (.pain_points, .jlist [.jstr "hidden charges", .jstr "annual fee"])]))
        [(.spending_patterns, .jdict [("avg_order_amount", .jnum ⟨300, 1⟩)]),
          (.pain_points, .jlist [.jstr "hidden charges", .jstr "annual fee"])] =
      update_user_profile
        (some { defaultProfile with
          spending_patterns := .jdict [("swiggy_frequency", .jstr "daily")]
          pain_points := .jlist [.jstr "annual fee"] })
        [(.spending_patterns, .jdict [("avg_order_amount", .jnum ⟨300, 1⟩)]),
          (.pain_points, .jlist [.jstr "hidden charges", .jstr "annual fee"])] :=
  update_user_profile_idempotent _ _ (by decide)
    (by
      intro kv hkv
      fin_cases hkv <;> unfold wfFieldVal <;> decide)

/-! ## Helper lemmas: context optimizer -/

theorem insLookup_assign_map (m : List (String × InsVal)) (k : String) (v : InsVal)
    (acc : Option InsVal) :
    (m.map (fun e => if e.1 == k then (k, v) else e)).foldl
        (fun a e => if e.1 == k then some e.2 else a) acc =
      if m.any (fun e => e.1 == k) then some v else acc := by
  induction m generalizing acc with
  | nil => rfl
  | cons x t ih =>
    simp only [List.map_cons, List.foldl_cons, List.any_cons]
    by_cases hx : (x.1 == k) = true
    · rw [if_pos hx]
      rw [if_pos (show (x.1 == k || t.any fun e => e.1 == k) = true from by simp [hx])]
      have hacc : (if ((k, v).1 == k) = true then some (k, v).2 else acc) = some v := by simp
      rw [hacc, ih]
      split <;> rfl
    · have hxf : (x.1 == k) = false := by simpa using hx
      rw [if_neg hx, if_neg hx]
      simp only [hxf, Bool.false_or]
      exact ih acc

theorem insLookup_dictAssign_self (m : List (String × InsVal)) (k : String) (v : InsVal) :
    insLookup (dictAssign m k v) k = some v := by
  unfold dictAssign insLookup
  split
  · rename_i hany
    rw [insLookup_assign_map, if_pos hany]
  · rw [List.foldl_append]
    show (if (k == k) then some v else _) = some v
    rw [if_pos (by simp)]

theorem foldl_lookup_map_ne (m : List (String × InsVal)) (k k' : String) (v : InsVal)
    (h : (k' == k) = false) (acc : Option InsVal) :
    (m.map (fun e => if e.1 == k' then (k', v) else e)).foldl
        (fun a e => if e.1 == k then some e.2 else a) acc =
      m.foldl (fun a e => if e.1 == k then some e.2 else a) acc := by
  induction m generalizing acc with
  | nil => rfl
  | cons x t ih =>
    simp only [List.map_cons, List.foldl_cons]
    by_cases hx : (x.1 == k') = true
    · rw [if_pos hx]
      have hxk : (x.1 == k) = false := by
        have : x.1 = k' := by simpa using hx
        rw [this]
        exact h
      show (t.map _).foldl _ (if (k' == k) then some v else acc) = _
      rw [if_neg (by simp [h])]
      rw [ih]
      congr 1
      show acc = if (x.1 == k) then some x.2 else acc
      rw [if_neg (by simp [hxk])]
    · rw [if_neg hx]
      exact ih _

theorem insLookup_dictAssign_ne (m : List (String × InsVal)) (k k' : String) (v : InsVal)
    (h : k' ≠ k) : insLookup (dictAssign m k' v) k = insLookup m k := by
  unfold dictAssign insLookup
  split
  · exact foldl_lookup_map_ne m k k' v (by simpa using h) none
  · rw [List.foldl_append]
    show (if (k' == k) then some v else _) = _
    rw [if_neg (by simpa using h)]

theorem insightsMap_eq_foldl (insights : List CtxInsight) :
    insightsMap insights = insights.foldl insightsStep [] := rfl

theorem insLookup_foldl_pres (post : List CtxInsight) (k : String)
    (acc : List (String × InsVal)) (h : ∀ j ∈ post, j.insight_key ≠ k) :
    insLookup (post.foldl insightsStep acc) k = insLookup acc k := by
  induction post generalizing acc with
  | nil => rfl
  | cons j t ih =>
    simp only [List.foldl_cons]
    rw [ih _ (fun x hx => h x (List.mem_cons_of_mem j hx))]
    unfold insightsStep
    split
    · exact insLookup_dictAssign_ne _ _ _ _ (h j (List.mem_cons_self j t))
    · rfl

theorem build_pitch_parts (ctx : UserCtx) :
    (build_session_context ctx "pitch").insights = some (insightsMap ctx.insights) ∧
    (build_session_context ctx "pitch").profile_subset =
      some ⟨(ctx.profile.getD defaultProfile).spending_patterns,
        (ctx.profile.getD defaultProfile).food_habits,
        (ctx.profile.getD defaultProfile).financial_goals,
        (ctx.profile.getD defaultProfile).current_cards⟩ ∧
    (build_session_context ctx "pitch").discovery_summary =
      ((ctx.recent_sessions.filter (fun s => s.session_type == "discovery")).head?).map
        (fun s => s.summary) := by
  cases h : (ctx.recent_sessions.filter (fun s => s.session_type == "discovery")).head? with
  | none => refine ⟨?_, ?_, ?_⟩ <;> simp [build_session_context, h]
  | some s => refine ⟨?_, ?_, ?_⟩ <;> simp [build_session_context, h]

/-! ## Claim theorems: pitch-phase context projection (C9) -/

/-- Claim C9, counterexample: an insight with key, string value and the
non-null numeric value 0 is projected as its string value - the
`numeric if numeric else value` treats the number 0 as falsy - so "non-null
numeric is preferred" is false. -/
theorem pitch_context_zero_numeric_uses_string :
    (build_session_context ⟨none, none, [⟨"weekly_orders", "zero", some ⟨0, 1⟩⟩], []⟩
        "pitch").insights = some [("weekly_orders", .ofStr "zero")] ∧
    (build_session_context ⟨none, none, [⟨"weekly_orders", "zero", some ⟨0, 1⟩⟩], []⟩
        "pitch").insights ≠ some [("weekly_orders", .ofNum ⟨0, 1⟩)] := by
  exact ⟨by decide, by decide⟩

/-- Claim C9, amended: for the pitch phase, an insight entry with a truthy
key, a string value and a truthy (non-null and nonzero) numeric value that
is not overridden by a later entry of the same key is projected to its
numeric value; the output also carries the profile subset
{spending_patterns, food_habits, financial_goals, current_cards} and the
summary of the first discovery session in the recent-session list when one
exists. -/
theorem pitch_context_insight_projection :
    (∀ (ctx : UserCtx) (pre post : List CtxInsight) (i : CtxInsight) (q : Q2),
      ctx.insights = pre ++ i :: post →
      i.insight_key ≠ "" → i.numeric_value = some q → q.num ≠ 0 →
      (∀ j ∈ post, j.insight_key ≠ i.insight_key) →
      ∃ m, (build_session_context ctx "pitch").insights = some m ∧
        insLookup m i.insight_key = some (.ofNum q)) ∧
    (∀ ctx : UserCtx, (build_session_context ctx "pitch").profile_subset =
      some ⟨(ctx.profile.getD defaultProfile).spending_patterns,
        (ctx.profile.getD defaultProfile).food_habits,
        (ctx.profile.getD defaultProfile).financial_goals,
        (ctx.profile.getD defaultProfile).current_cards⟩) ∧
    (∀ ctx : UserCtx, (build_session_context ctx "pitch").discovery_summary =
      ((ctx.recent_sessions.filter (fun s => s.session_type == "discovery")).head?).map
        (fun s => s.summary)) := by
  refine ⟨?_, fun ctx => (build_pitch_parts ctx).2.1, fun ctx => (build_pitch_parts ctx).2.2⟩
  intro ctx pre post i q hins hkey hnum hq hpost
  refine ⟨insightsMap ctx.insights, (build_pitch_parts ctx).1, ?_⟩
  rw [hins, insightsMap_eq_foldl, List.foldl_append, List.foldl_cons]
  rw [insLookup_foldl_pres post i.insight_key _ hpost]
  have hstep : insightsStep (List.foldl insightsStep [] pre) i =
      dictAssign (List.foldl insightsStep [] pre) i.insight_key (.ofNum q) := by
    unfold insightsStep
    rw [if_pos hkey, hnum]
    simp [hq]
  rw [hstep, insLookup_dictAssign_self]

/-- Witness for `pitch_context_insight_projection` on a one-insight context. -/
theorem pitch_context_insight_projection_witness :
    ∃ m, (build_session_context ⟨none, none, [⟨"weekly_orders", "3.5", some ⟨7, 2⟩⟩], []⟩
        "pitch").insights = some m ∧
      insLookup m "weekly_orders" = some (.ofNum ⟨7, 2⟩) :=
  pitch_context_insight_projection.1
    ⟨none, none, [⟨"weekly_orders", "3.5", some ⟨7, 2⟩⟩], []⟩ [] []
    ⟨"weekly_orders", "3.5", some ⟨7, 2⟩⟩ ⟨7, 2⟩ rfl (by decide) rfl (by decide)
    (by intro j hj; cases hj)

/-! ## Helper lemmas: frequency parsing -/

theorem numAt_none_of_no_digit (s : List Char) (h : ∀ c ∈ s, isDigitCh c = false) :
    numAt s = none := by
  unfold numAt
  cases s with
  | nil => rfl
  | cons c t =>
    rw [List.takeWhile_cons, h c (List.mem_cons_self c t)]
    rfl

theorem rangeAt_none_of_no_digit (s : List Char) (h : ∀ c ∈ s, isDigitCh c = false) :
    rangeAt s = none := by
  unfold rangeAt
  cases s with
  | nil => rfl
  | cons c t =>
    rw [List.takeWhile_cons, h c (List.mem_cons_self c t)]
    rfl

theorem searchNum_none_of_no_digit (s : List Char) (h : ∀ c ∈ s, isDigitCh c = false) :
    searchNum s = none := by
  induction s with
  | nil => rfl
  | cons c t ih =>
    show scanFirst numAt (c :: t) = none
    unfold scanFirst
    rw [numAt_none_of_no_digit _ h]
    exact ih (fun x hx => h x (List.mem_cons_of_mem c hx))

theorem searchRange_none_of_no_digit (s : List Char) (h : ∀ c ∈ s, isDigitCh c = false) :
    searchRange s = none := by
  induction s with
  | nil => rfl
  | cons c t ih =>
    show scanFirst rangeAt (c :: t) = none
    unfold scanFirst
    rw [rangeAt_none_of_no_digit _ h]
    exact ih (fun x hx => h x (List.mem_cons_of_mem c hx))

/-! ## Claim theorems: frequency normalizer (C3) -/

/-- Claim C3: the precedence of `parse_frequency_to_weekly` - an explicit
numeric range averages its bounds (even when a unit word is present); an
explicit single number is taken as-is for "week", divided by the float 4.33
for "month", multiplied by 7 for "day", as-is with no unit; qualitative
terms map to 7.0 / 2.0 / 1.0 / 0.5; and any phrase with no digits and none
of the qualitative markers yields `none`, never zero. -/
theorem parse_frequency_precedence :
    (∀ f : List Char,
      (∀ c ∈ f.map toLowerCh, isDigitCh c = false) →
      hasSub ['d', 'a', 'i', 'l', 'y'] (f.map toLowerCh) = false →
      hasSub ['e', 'v', 'e', 'r', 'y', ' ', 'd', 'a', 'y'] (f.map toLowerCh) = false →
      (hasSub ['t', 'w', 'i', 'c', 'e'] (f.map toLowerCh) = false ∨
        hasSub ['w', 'e', 'e', 'k'] (f.map toLowerCh) = false) →
      (hasSub ['o', 'n', 'c', 'e'] (f.map toLowerCh) = false ∨
        hasSub ['w', 'e', 'e', 'k'] (f.map toLowerCh) = false) →
      hasSub ['o', 'c', 'c', 'a', 's', 'i', 'o', 'n', 'a', 'l', 'l', 'y'] (f.map toLowerCh) = false →
      hasSub ['r', 'a', 'r', 'e', 'l', 'y'] (f.map toLowerCh) = false →
      parse_frequency_to_weekly f = none) ∧
    parse_frequency_to_weekly "3-4 times per week".toList = some ⟨7, 2⟩ ∧
    parse_frequency_to_weekly "2 to 3 per week".toList = some ⟨5, 2⟩ ∧
    parse_frequency_to_weekly "5 times per week".toList = some ⟨5, 1⟩ ∧
    parse_frequency_to_weekly "5 times a month".toList =
      some ⟨5200461463476323, 4503599627370496⟩ ∧
    parse_frequency_to_weekly "2 times a day".toList = some ⟨14, 1⟩ ∧
    parse_frequency_to_weekly "6 times".toList = some ⟨6, 1⟩ ∧
    parse_frequency_to_weekly "daily".toList = some ⟨7, 1⟩ ∧
    parse_frequency_to_weekly "twice a week".toList = some ⟨2, 1⟩ ∧
    parse_frequency_to_weekly "once a week".toList = some ⟨1, 1⟩ ∧
    parse_frequency_to_weekly "we order occasionally".toList = some ⟨1, 2⟩ ∧
    parse_frequency_to_weekly "hello there".toList = none := by
  refine ⟨?_, by decide, by decide, by decide, by decide, by decide, by decide, by decide,
    by decide, by decide, by decide, by decide⟩
  intro f hnd h1 h2 h3 h4 h5 h6
  unfold parse_frequency_to_weekly
  split
  · rfl
  · rcases h3 with h3 | h3 <;> rcases h4 with h4 | h4 <;>
      simp [searchRange_none_of_no_digit _ hnd, searchNum_none_of_no_digit _ hnd,
        h1, h2, h3, h4, h5, h6]

/-- Witness for `parse_frequency_precedence` on a digit-free phrase without
qualitative markers. -/
theorem parse_frequency_precedence_witness :
    parse_frequency_to_weekly "no idea really, maybe sometimes".toList = none :=
  parse_frequency_precedence.1 _ (by decide) (by decide) (by decide) (Or.inl (by decide))
    (Or.inl (by decide)) (by decide) (by decide)

/-! ## Helper lemmas: phone extraction -/

theorem scanFirst_sound {α : Type} (f : List Char → Option α) (s : List Char) (g : α)
    (h : scanFirst f s = some g) : ∃ n, f (s.drop n) = some g := by
  induction s with
  | nil => exact ⟨0, h⟩
  | cons c t ih =>
    unfold scanFirst at h
    cases hf : f (c :: t) with
    | some r =>
      rw [hf] at h
      exact ⟨0, hf.trans h⟩
    | none =>
      rw [hf] at h
      obtain ⟨n, hn⟩ := ih h
      exact ⟨n + 1, by simpa using hn⟩

theorem is69_isDigit (c : Char) (h : is69 c = true) : isDigitCh c = true := by
  simp only [is69, Bool.and_eq_true, decide_eq_true_eq] at h
  simp only [isDigitCh, Bool.and_eq_true, decide_eq_true_eq]
  exact ⟨le_trans (by decide) h.1, h.2⟩

theorem tenAt69_sound (s g : List Char) (h : tenAt69 s = some g) :
    g = s.take 10 ∧ g.length = 10 ∧ ∀ c ∈ g, isDigitCh c = true := by
  cases s with
  | nil => simp [tenAt69] at h
  | cons c rest =>
    simp only [tenAt69] at h
    split_ifs at h with hc
    have hg : g = c :: rest.take 9 := (Option.some_inj.mp h).symm
    simp only [Bool.and_eq_true] at hc
    have h69 := hc.1
    have hlen9' : (rest.take 9).length = 9 := by simpa using hc.2.1
    refine ⟨by rw [hg, List.take_succ_cons], by simp [hg, hlen9'], ?_⟩
    intro x hx
    rw [hg] at hx
    rcases List.mem_cons.mp hx with hx | hx
    · exact hx ▸ is69_isDigit c h69
    · exact List.all_eq_true.mp hc.2.2 x hx

theorem tryIndian_sound (s g : List Char) (h : tryIndian s = some g) :
    ∃ k, tenAt69 (s.drop k) = some g := by
  unfold tryIndian at h
  cases h1 : (if leadsWith ['+', '9', '1'] s then tenAt69 (s.drop 3) else none) with
  | some g1 =>
    rw [h1] at h
    split_ifs at h1 with hp
    exact ⟨3, h1.trans h⟩
  | none =>
    rw [h1] at h
    cases h2 : (if leadsWith ['9', '1'] s then tenAt69 (s.drop 2) else none) with
    | some g2 =>
      rw [h2] at h
      split_ifs at h2 with hp
      exact ⟨2, h2.trans h⟩
    | none =>
      rw [h2] at h
      exact ⟨0, h⟩

theorem tenAtAny_sound (s g : List Char) (h : tenAtAny s = some g) :
    g = s.take 10 ∧ g.length = 10 ∧ ∀ c ∈ g, isDigitCh c = true := by
  unfold tenAtAny at h
  split_ifs at h with hc
  have hg : g = s.take 10 := (Option.some_inj.mp h).symm
  simp only [Bool.and_eq_true] at hc
  refine ⟨hg, by rw [hg]; simpa using hc.1, ?_⟩
  intro x hx
  rw [hg] at hx
  exact List.all_eq_true.mp hc.2 x hx

theorem isDigit_not_sep (c : Char) (h : isDigitCh c = true) : isSepCh c = false := by
  simp only [isDigitCh, Bool.and_eq_true, decide_eq_true_eq] at h
  obtain ⟨h0, h9⟩ := h
  have hne : ∀ x : Char, x < '0' → (c == x) = false := by
    intro x hx
    have hcx : c ≠ x := by
      intro he
      subst he
      exact absurd h0 (not_le.mpr hx)
    simpa using hcx
  simp only [isSepCh, isSpaceCh]
  rw [hne ' ' (by decide), hne '\t' (by decide), hne '\n' (by decide), hne '\r' (by decide),
    hne '\x0b' (by decide), hne '\x0c' (by decide), hne '-' (by decide), hne '.' (by decide),
    hne '(' (by decide), hne ')' (by decide)]
  rfl

theorem digitsOf_cleanedOf (t : List Char) : digitsOf (cleanedOf t) = digitsOf t := by
  unfold digitsOf cleanedOf
  rw [List.filter_filter]
  apply List.filter_congr
  intro c _
  cases hd : isDigitCh c
  · simp [hd]
  · simp [hd, isDigit_not_sep c hd]

theorem cleanedOf_eq_digitsOf (t : List Char)
    (h : ∀ c ∈ t, (isDigitCh c || isSepCh c) = true) : cleanedOf t = digitsOf t := by
  unfold cleanedOf digitsOf
  apply List.filter_congr
  intro c hc
  have hor := h c hc
  cases hd : isDigitCh c
  · rw [hd] at hor
    simp only [Bool.false_or] at hor
    simp [hor, hd]
  · simp [isDigit_not_sep c hd, hd]

theorem found_run_eq_digits (t g : List Char) (h10 : (digitsOf t).length = 10)
    (n : ℕ) (hg : g = ((cleanedOf t).drop n).take 10)
    (hlen : g.length = 10) (hdig : ∀ c ∈ g, isDigitCh c = true) :
    g = digitsOf t := by
  have hsplit : cleanedOf t =
      (cleanedOf t).take n ++ (g ++ ((cleanedOf t).drop n).drop 10) := by
    conv_lhs => rw [← List.take_append_drop n (cleanedOf t)]
    congr 1
    rw [hg]
    exact (List.take_append_drop 10 _).symm
  have hcalc : digitsOf t =
      digitsOf ((cleanedOf t).take n) ++ (g ++ digitsOf (((cleanedOf t).drop n).drop 10)) := by
    conv_lhs => rw [← digitsOf_cleanedOf t, hsplit]
    unfold digitsOf
    rw [List.filter_append, List.filter_append, List.filter_eq_self.mpr hdig]
  have hlens := congrArg List.length hcalc
  simp only [List.length_append, h10, hlen] at hlens
  have e1 : digitsOf ((cleanedOf t).take n) = [] :=
    List.eq_nil_of_length_eq_zero (by omega)
  have e2 : digitsOf (((cleanedOf t).drop n).drop 10) = [] :=
    List.eq_nil_of_length_eq_zero (by omega)
  rw [e1, e2] at hcalc
  simpa using hcalc.symm

theorem extract_phone_ten_digit (t : List Char) (h10 : (digitsOf t).length = 10) :
    extract_phone_number t = some (digitsOf t) := by
  unfold extract_phone_number
  cases h1 : scanFirst tryIndian (cleanedOf t) with
  | some g =>
    simp only [h1]
    obtain ⟨n, hn⟩ := scanFirst_sound _ _ _ h1
    obtain ⟨k, hk⟩ := tryIndian_sound _ _ hn
    obtain ⟨hg, hlen, hdig⟩ := tenAt69_sound _ _ hk
    rw [List.drop_drop] at hg
    rw [found_run_eq_digits t g h10 (n + k) hg hlen hdig]
  | none =>
    cases h2 : scanFirst tenAt69 (cleanedOf t) with
    | some g =>
      simp only [h1, h2]
      obtain ⟨n, hn⟩ := scanFirst_sound _ _ _ h2
      obtain ⟨hg, hlen, hdig⟩ := tenAt69_sound _ _ hn
      have hg' : g = ((cleanedOf t).drop n).take 10 := hg
      rw [found_run_eq_digits t g h10 n hg' hlen hdig]
    | none =>
      cases h3 : scanFirst tenAtAny (cleanedOf t) with
      | some g =>
        simp only [h1, h2, h3]
        obtain ⟨n, hn⟩ := scanFirst_sound _ _ _ h3
        obtain ⟨hg, hlen, hdig⟩ := tenAtAny_sound _ _ hn
        rw [found_run_eq_digits t g h10 n hg hlen hdig]
      | none =>
        simp only [h1, h2, h3]
        rw [if_pos (by omega)]
        simp [h10]

/-! ## Claim theorems: phone-number extraction (C6) -/

/-- Claim C6, counterexample: two texts with the same ordered digit sequence
that differ only in non-digit noise can extract different numbers - the
noise character `x` is not in the stripped separator class, so it splits
the digit run and a different 10-digit window matches. -/
theorem extract_phone_number_noise_sensitivity :
    digitsOf "98765432109".toList = digitsOf "9x8765432109".toList ∧
    extract_phone_number "98765432109".toList ≠ extract_phone_number "9x8765432109".toList ∧
    extract_phone_number "98765432109".toList = some "9876543210".toList ∧
    extract_phone_number "9x8765432109".toList = some "8765432109".toList := by
  exact ⟨by decide, by decide, by decide, by decide⟩

/-- Claim C6, amended: for every text whose digit sequence has exactly 10
digits, `extract_phone_number` returns exactly those 10 digits in order
(whichever of the prioritized patterns or the last-10-digits fallback
fires); and for texts whose noise consists only of the stripped separator
characters (whitespace, dashes, dots, parentheses), the result depends only
on the digit sequence, so equal digit sequences give equal results. -/
theorem extract_phone_number_canonicalizes :
    (∀ t : List Char, (digitsOf t).length = 10 →
      extract_phone_number t = some (digitsOf t)) ∧
    (∀ t1 t2 : List Char,
      (∀ c ∈ t1, (isDigitCh c || isSepCh c) = true) →
      (∀ c ∈ t2, (isDigitCh c || isSepCh c) = true) →
      digitsOf t1 = digitsOf t2 →
      extract_phone_number t1 = extract_phone_number t2) := by
  refine ⟨extract_phone_ten_digit, ?_⟩
  intro t1 t2 h1 h2 h12
  simp only [extract_phone_number]
  rw [cleanedOf_eq_digitsOf t1 h1, cleanedOf_eq_digitsOf t2 h2, h12]

/-- Witness for `extract_phone_number_canonicalizes` on concrete formatted
numbers. -/
theorem extract_phone_number_canonicalizes_witness :
    extract_phone_number "(987) 654-3210".toList =
      some (digitsOf "(987) 654-3210".toList) ∧
    extract_phone_number "98765 43210".toList =
      extract_phone_number "9876-543.210".toList :=
  ⟨extract_phone_number_canonicalizes.1 _ (by decide),
    extract_phone_number_canonicalizes.2 _ _ (by decide) (by decide) (by decide)⟩
